import Mathlib

/-!
# SingleLinkedList (single-linked-list.h): a shallow embedding

The C++ container keeps a sentinel node `head_` inside the list object and a chain of
`new`-allocated nodes behind it.  Every `Node*` of the program (the sentinel's address,
a heap node's address, `nullptr`) is modelled as an `Option Nat`: `none` is `nullptr`,
`some a` is the address `a` of a cell of the node memory.  The node memory is a list of
cells; a cell is `some node` while the node is alive and `none` once it has been destroyed.

Operations pass the node memory and the list object explicitly and return
`Except Fault _`: a failed `assert` and an access through a null or dangling pointer are
distinguished faults.  `size_t` arithmetic wraps modulo `2 ^ 64`.
-/

namespace SLL

/-- Number of values of `size_t`. -/
def SIZE_MOD : Nat := 2 ^ 64

/-- Ways an operation can fail to return normally. -/
inductive Fault where
  /-- an `assert(...)` of the source failed -/
  | assertion : Fault
  /-- access through a null or dangling pointer (undefined behaviour) -/
  | invalid : Fault
  /-- a loop of the model used up its iteration budget -/
  | fuel : Fault
  deriving DecidableEq, Repr

/-- The struct `Node`: a value and the pointer `next_node`. -/
structure Node (T : Type) where
  value : T
  next_node : Option Nat
  deriving DecidableEq, Repr

/-- Node memory: cell `a` holds the node living at address `a`, if any. -/
abbrev Heap (T : Type) := List (Option (Node T))

variable {T : Type}

/-- Read through a node address (`p->...` with `p = a`). -/
def Heap.load (h : Heap T) (a : Nat) : Except Fault (Node T) :=
  match h[a]? with
  | some (some n) => .ok n
  | _ => .error .invalid

/-- Write through a node address. -/
def Heap.store (h : Heap T) (a : Nat) (n : Node T) : Heap T :=
  h.set a (some n)

/-- The expression `new Node(value, next)`: a fresh cell, and its address. -/
def Heap.alloc (h : Heap T) (n : Node T) : Heap T × Nat :=
  (h ++ [some n], h.length)

/-- The statement `delete p`: no effect on `nullptr`, otherwise the node at `p` dies. -/
def Heap.delete (h : Heap T) (p : Option Nat) : Except Fault (Heap T) :=
  match p with
  | none => .ok h
  | some a =>
    match h[a]? with
    | some (some _) => .ok (h.set a none)
    | _ => .error .invalid

/-- The class `BasicIterator`: its only field is `node_`. -/
structure BasicIterator where
  node_ : Option Nat
  deriving DecidableEq, Repr

/-- The list object: `head_` is the address at which the sentinel node lives,
`size_` the stored element count. -/
structure SingleLinkedList where
  head_ : Nat
  size_ : Nat
  deriving DecidableEq, Repr

/-- Prefix `operator++` of the iterator. -/
def BasicIterator.incr (h : Heap T) (it : BasicIterator) : Except Fault BasicIterator :=
  match it.node_ with
  | none => .error .assertion
  | some a => do
    let n ← h.load a
    pure ⟨n.next_node⟩

/-- Iterator `operator*`. -/
def BasicIterator.deref (h : Heap T) (it : BasicIterator) : Except Fault T :=
  match it.node_ with
  | none => .error .assertion
  | some a => do
    let n ← h.load a
    pure n.value

/-- Default constructor: the sentinel comes to life with `next_node = nullptr`, size is 0. -/
def SingleLinkedList.ctor [Inhabited T] (h : Heap T) : Heap T × SingleLinkedList :=
  let r := h.alloc (⟨default, none⟩ : Node T)
  (r.1, ⟨r.2, 0⟩)

/-- The member `GetSize()`; an abbreviation, so that it unfolds before any size arithmetic. -/
abbrev GetSize (L : SingleLinkedList) : Nat := L.size_

def IsEmpty (L : SingleLinkedList) : Bool := L.size_ == 0

def begin (h : Heap T) (L : SingleLinkedList) : Except Fault BasicIterator := do
  let hd ← h.load L.head_
  pure ⟨hd.next_node⟩

/-- The member `end()`. -/
def end_ : BasicIterator := ⟨none⟩

def before_begin (L : SingleLinkedList) : BasicIterator := ⟨some L.head_⟩

/-- Member `swap`. -/
def swap (h : Heap T) (L other : SingleLinkedList) :
    Except Fault (Heap T × SingleLinkedList × SingleLinkedList) := do
  let a ← h.load L.head_
  let b ← h.load other.head_
  let h1 := h.store L.head_ { a with next_node := b.next_node }
  let b1 ← h1.load other.head_
  let h2 := h1.store other.head_ { b1 with next_node := a.next_node }
  pure (h2, { L with size_ := other.size_ }, { other with size_ := L.size_ })

def PushFront (h : Heap T) (L : SingleLinkedList) (value : T) :
    Except Fault (Heap T × SingleLinkedList) := do
  let hd ← h.load L.head_
  let next := hd.next_node
  let r := h.alloc ⟨value, next⟩
  let h2 := r.1.store L.head_ { hd with next_node := some r.2 }
  pure (h2, { L with size_ := (L.size_ + 1) % SIZE_MOD })

def InsertAfter (h : Heap T) (L : SingleLinkedList) (pos : BasicIterator) (value : T) :
    Except Fault (Heap T × SingleLinkedList × BasicIterator) :=
  match pos.node_ with
  | none => .error .assertion
  | some a => do
    let p ← h.load a
    let r := h.alloc ⟨value, p.next_node⟩
    let new_element := r.2
    let h2 := r.1.store a { p with next_node := some new_element }
    pure (h2, { L with size_ := (L.size_ + 1) % SIZE_MOD }, ⟨some new_element⟩)

def PopFront (h : Heap T) (L : SingleLinkedList) :
    Except Fault (Heap T × SingleLinkedList) :=
  if IsEmpty L then .error .assertion
  else do
    let hd ← h.load L.head_
    let old := hd.next_node
    let nx ← match old with
      | none => .error .invalid
      | some b => h.load b
    let h1 := h.store L.head_ { hd with next_node := nx.next_node }
    let h2 ← h1.delete old
    pure (h2, { L with size_ := (L.size_ + SIZE_MOD - 1) % SIZE_MOD })

def EraseAfter (h : Heap T) (L : SingleLinkedList) (pos : BasicIterator) :
    Except Fault (Heap T × SingleLinkedList × BasicIterator) :=
  match pos.node_ with
  | none => .error .assertion
  | some a => do
    let p ← h.load a
    let old := p.next_node
    let nx ← match old with
      | none => .error .invalid
      | some b => h.load b
    let h1 := h.store a { p with next_node := nx.next_node }
    let h2 ← h1.delete old
    let p2 ← h2.load a
    pure (h2, { L with size_ := (L.size_ + SIZE_MOD - 1) % SIZE_MOD }, ⟨p2.next_node⟩)

/-- The loop of `Clear`: `while (head_.next_node != nullptr) PopFront();`. -/
def ClearLoop (h : Heap T) (L : SingleLinkedList) :
    Nat → Except Fault (Heap T × SingleLinkedList)
  | 0 => .error .fuel
  | fuel + 1 => do
    let hd ← h.load L.head_
    if hd.next_node ≠ none then do
      let r ← PopFront h L
      ClearLoop r.1 r.2 fuel
    else pure (h, L)

/-- Every `PopFront` that returns has lowered a non-zero `size_` by one, so the
loop is entered at most `size_` times and evaluates its condition at most `size_ + 1` times. -/
def Clear (h : Heap T) (L : SingleLinkedList) : Except Fault (Heap T × SingleLinkedList) :=
  ClearLoop h L (L.size_ + 1)

/-- Destructor: `Clear()`, after which the storage of the sentinel ends. -/
def SingleLinkedList.dtor (h : Heap T) (L : SingleLinkedList) : Except Fault (Heap T) := do
  let r ← Clear h L
  r.1.delete (some r.2.head_)

/-- The range-for loop of `Transfer` over a sequence of values. -/
def TransferLoop (h : Heap T) (tmp : SingleLinkedList) (it : BasicIterator) :
    List T → Except Fault (Heap T × SingleLinkedList × BasicIterator)
  | [] => pure (h, tmp, it)
  | element :: rest => do
    let r ← InsertAfter h tmp it element
    let it1 ← it.incr r.1
    TransferLoop r.1 r.2.1 it1 rest

/-- The member `Transfer`, instantiated for `std::initializer_list<Type>`. -/
def Transfer [Inhabited T] (h : Heap T) (L : SingleLinkedList) (data : List T) :
    Except Fault (Heap T × SingleLinkedList) := do
  let c := SingleLinkedList.ctor h
  let tmp := c.2
  let it := before_begin tmp
  let r ← TransferLoop c.1 tmp it data
  let s ← swap r.1 L r.2.1
  let h3 ← SingleLinkedList.dtor s.1 s.2.2
  pure (h3, s.2.1)

/-- Constructor `SingleLinkedList(std::initializer_list<Type> values)`. -/
def SingleLinkedList.ofValues [Inhabited T] (h : Heap T) (values : List T) :
    Except Fault (Heap T × SingleLinkedList) :=
  let c := SingleLinkedList.ctor (T := T) h
  Transfer c.1 c.2 values

/-- Walk `first, ++first, ...` until `end()`, collecting `*first`. -/
def collect (h : Heap T) : Nat → BasicIterator → Except Fault (List T)
  | 0, _ => .error .fuel
  | fuel + 1, first =>
    if first ≠ end_ then do
      let x ← first.deref h
      let nx ← first.incr h
      let rest ← collect h fuel nx
      pure (x :: rest)
    else pure []

/-- The elements met by iterating from `begin()` to `end()`.  A chain without a cycle
has fewer nodes than the memory has cells, so the budget never runs out on one. -/
def elements (h : Heap T) (L : SingleLinkedList) : Except Fault (List T) := do
  let b ← begin h L
  collect h (h.length + 1) b

/-- The algorithm `std::equal(first1, last1, first2, last2)` of the standard library on
forward iterators: step both ranges together while neither is exhausted, stop with `false`
at the first pair of unequal elements, and at the end require both ranges exhausted. -/
def std_equal [DecidableEq T] (h : Heap T) (last1 last2 : BasicIterator) :
    Nat → BasicIterator → BasicIterator → Except Fault Bool
  | 0, _, _ => .error .fuel
  | fuel + 1, first1, first2 =>
    if first1 ≠ last1 ∧ first2 ≠ last2 then do
      let x ← first1.deref h
      let y ← first2.deref h
      if ¬ (x = y) then pure false
      else do
        let n1 ← first1.incr h
        let n2 ← first2.incr h
        std_equal h last1 last2 fuel n1 n2
    else pure (decide (first1 = last1 ∧ first2 = last2))

/-- The algorithm `std::lexicographical_compare(first1, last1, first2, last2)` of the
standard library: at the first pair with `*first1 < *first2` the answer is `true`, with
`*first2 < *first1` it is `false`; when a range is exhausted the answer is whether the
first one is exhausted and the second is not. -/
def std_lexicographical_compare [LT T] [DecidableRel (fun a b : T => a < b)] (h : Heap T)
    (last1 last2 : BasicIterator) :
    Nat → BasicIterator → BasicIterator → Except Fault Bool
  | 0, _, _ => .error .fuel
  | fuel + 1, first1, first2 =>
    if first1 ≠ last1 ∧ first2 ≠ last2 then do
      let x ← first1.deref h
      let y ← first2.deref h
      if x < y then pure true
      else if y < x then pure false
      else do
        let n1 ← first1.incr h
        let n2 ← first2.incr h
        std_lexicographical_compare h last1 last2 fuel n1 n2
    else pure (decide (first1 = last1 ∧ first2 ≠ last2))

/-- The free function `operator==`. -/
def operator_eq [DecidableEq T] (h : Heap T) (lhs rhs : SingleLinkedList) :
    Except Fault Bool := do
  let b1 ← begin h lhs
  let b2 ← begin h rhs
  std_equal h end_ end_ (h.length + 1) b1 b2

/-- The free function `operator!=`. -/
def operator_ne [DecidableEq T] (h : Heap T) (lhs rhs : SingleLinkedList) :
    Except Fault Bool := do
  let r ← operator_eq h lhs rhs
  pure (!r)

/-- The free function `operator<`. -/
def operator_lt [LT T] [DecidableRel (fun a b : T => a < b)] (h : Heap T)
    (lhs rhs : SingleLinkedList) : Except Fault Bool := do
  let b1 ← begin h lhs
  let b2 ← begin h rhs
  std_lexicographical_compare h end_ end_ (h.length + 1) b1 b2

/-- The free function `operator>`. -/
def operator_gt [LT T] [DecidableRel (fun a b : T => a < b)] (h : Heap T)
    (lhs rhs : SingleLinkedList) : Except Fault Bool :=
  operator_lt h rhs lhs

/-- The free function `operator<=`. -/
def operator_le [LT T] [DecidableRel (fun a b : T => a < b)] (h : Heap T)
    (lhs rhs : SingleLinkedList) : Except Fault Bool := do
  let r ← operator_gt h lhs rhs
  pure (!r)

/-- The free function `operator>=`. -/
def operator_ge [LT T] [DecidableRel (fun a b : T => a < b)] (h : Heap T)
    (lhs rhs : SingleLinkedList) : Except Fault Bool := do
  let r ← operator_lt h lhs rhs
  pure (!r)

/-- Apply `++` to an iterator `n` times. -/
def advance (h : Heap T) (it : BasicIterator) : Nat → Except Fault BasicIterator
  | 0 => pure it
  | n + 1 => do
    let nx ← it.incr h
    advance h nx n

/-- The nodes `ns` (address and value of each) are exactly those met when following
`next_node` from pointer `p` until the pointer `q` is reached. -/
def Seg (h : Heap T) : Option Nat → List (Nat × T) → Option Nat → Prop
  | p, [], q => p = q
  | p, (a, v) :: rest, q => p = some a ∧ ∃ nx, h.load a = .ok ⟨v, nx⟩ ∧ Seg h nx rest q

/-- Outcome of the lexicographical comparison loop on two element sequences. -/
def lexCompare [LT T] [DecidableRel (fun a b : T => a < b)] : List T → List T → Bool
  | [], [] => false
  | [], _ :: _ => true
  | _ :: _, [] => false
  | x :: xs, y :: ys =>
    if x < y then true else if y < x then false else lexCompare xs ys

/-- A memory holding the list `[1, 2]` behind the sentinel at address 0 and the list
`[1, 2, 3]` behind the sentinel at address 3. -/
def demoHeap : Heap Int :=
  [some ⟨0, some 1⟩, some ⟨1, some 2⟩, some ⟨2, none⟩,
   some ⟨0, some 4⟩, some ⟨1, some 5⟩, some ⟨2, some 6⟩, some ⟨3, none⟩]

/-- The list `[1, 2]` of `demoHeap`. -/
def demoA : SingleLinkedList := ⟨0, 2⟩

/-- The list `[1, 2, 3]` of `demoHeap`. -/
def demoB : SingleLinkedList := ⟨3, 3⟩

/-- A memory holding the list `[1, 3]` behind the sentinel at address 0 and the list
`[1, 2, 9]` behind the sentinel at address 3. -/
def demoHeap2 : Heap Int :=
  [some ⟨0, some 1⟩, some ⟨1, some 2⟩, some ⟨3, none⟩,
   some ⟨0, some 4⟩, some ⟨1, some 5⟩, some ⟨2, some 6⟩, some ⟨9, none⟩]

/-- The list `[1, 3]` of `demoHeap2`. -/
def demoC : SingleLinkedList := ⟨0, 2⟩

/-- The list `[1, 2, 9]` of `demoHeap2`. -/
def demoD : SingleLinkedList := ⟨3, 3⟩

/-- The member `cbefore_begin()`, and the const overload of `before_begin()`. -/
def cbefore_begin (L : SingleLinkedList) : BasicIterator := ⟨some L.head_⟩

/-- Iterator `operator->`: the address of the node whose value field is pointed to. -/
def BasicIterator.arrow (it : BasicIterator) : Except Fault Nat :=
  match it.node_ with
  | none => .error .assertion
  | some a => .ok a

/-- The free function `swap`. -/
def swap_free (h : Heap T) (lhs rhs : SingleLinkedList) :
    Except Fault (Heap T × SingleLinkedList × SingleLinkedList) :=
  swap h lhs rhs

/-- The range-for loop of `Transfer` over another list: `first` runs from `data.begin()`
to `data.end()`, and `*first` is inserted after `it`. -/
def TransferCopyLoop : Nat → Heap T → SingleLinkedList → BasicIterator → BasicIterator →
    Except Fault (Heap T × SingleLinkedList × BasicIterator)
  | 0, _, _, _, _ => .error .fuel
  | fuel + 1, h, tmp, it, first =>
    if first ≠ end_ then do
      let element ← first.deref h
      let r ← InsertAfter h tmp it element
      let it1 ← it.incr r.1
      let nx ← first.incr r.1
      TransferCopyLoop fuel r.1 r.2.1 it1 nx
    else pure (h, tmp, it)

/-- The member `Transfer`, instantiated for `SingleLinkedList` as the data.  The chain of
`data` has fewer nodes than the memory has cells at loop entry. -/
def TransferCopy [Inhabited T] (h : Heap T) (L data : SingleLinkedList) :
    Except Fault (Heap T × SingleLinkedList) := do
  let c := SingleLinkedList.ctor h
  let tmp := c.2
  let it := before_begin tmp
  let first ← begin c.1 data
  let r ← TransferCopyLoop (c.1.length + 1) c.1 tmp it first
  let s ← swap r.1 L r.2.1
  let h3 ← SingleLinkedList.dtor s.1 s.2.2
  pure (h3, s.2.1)

/-- Copy constructor `SingleLinkedList(const SingleLinkedList& other)`. -/
def SingleLinkedList.copy [Inhabited T] (h : Heap T) (other : SingleLinkedList) :
    Except Fault (Heap T × SingleLinkedList) :=
  let c := SingleLinkedList.ctor (T := T) h
  TransferCopy c.1 c.2 other

/-- Member `operator=`.  Two list objects are the same object exactly when their sentinels
have the same address, which is how `this != &rhs` is decided. -/
def operator_assign [Inhabited T] (h : Heap T) (lhs rhs : SingleLinkedList) :
    Except Fault (Heap T × SingleLinkedList) :=
  if lhs.head_ ≠ rhs.head_ then do
    let tmp ← SingleLinkedList.copy h rhs
    let s ← swap tmp.1 lhs tmp.2
    let h3 ← SingleLinkedList.dtor s.1 s.2.2
    pure (h3, s.2.1)
  else pure (h, lhs)

/-- The loop of `Clear`, also counting the calls of `PopFront`. -/
def ClearLoopCount (h : Heap T) (L : SingleLinkedList) :
    Nat → Except Fault (Heap T × SingleLinkedList × Nat)
  | 0 => .error .fuel
  | fuel + 1 => do
    let hd ← h.load L.head_
    if hd.next_node ≠ none then do
      let r ← PopFront h L
      let c ← ClearLoopCount r.1 r.2 fuel
      pure (c.1, c.2.1, c.2.2 + 1)
    else pure (h, L, 0)

/-- Addresses of the nodes met by walking from `first` to `end()`. -/
def collectNodes (h : Heap T) : Nat → BasicIterator → Except Fault (List Nat)
  | 0, _ => .error .fuel
  | fuel + 1, first =>
    match first.node_ with
    | none => pure []
    | some a => do
      let nx ← first.incr h
      let rest ← collectNodes h fuel nx
      pure (a :: rest)

/-- The storage of a list: the address of its sentinel, then of every element node. -/
def storage (h : Heap T) (L : SingleLinkedList) : Except Fault (List Nat) := do
  let b ← begin h L
  let r ← collectNodes h (h.length + 1) b
  pure (L.head_ :: r)

/-- Two lists share no node: neither a sentinel nor an element node. -/
def Separate (h : Heap T) (a b : SingleLinkedList) : Prop :=
  ∃ na nb, storage h a = .ok na ∧ storage h b = .ok nb ∧ ∀ x ∈ na, x ∉ nb

/-- The size invariant: `size_` is a `size_t` value and equals the number of nodes met
when walking from `begin()` to `end()`. -/
def SizeInv (h : Heap T) (L : SingleLinkedList) : Prop :=
  Except.map List.length (elements h L) = .ok (GetSize L) ∧ GetSize L < SIZE_MOD

/-- A mutating call on a list; positions are given by the number of increments that lead
to them from `before_begin()`. -/
inductive Mutation (T : Type) where
  | pushFront (v : T) : Mutation T
  | popFront : Mutation T
  | insertAfter (i : Nat) (v : T) : Mutation T
  | eraseAfter (i : Nat) : Mutation T
  | clear : Mutation T

/-- Run one mutating call. -/
def Mutation.apply (h : Heap T) (L : SingleLinkedList) :
    Mutation T → Except Fault (Heap T × SingleLinkedList)
  | .pushFront v => PushFront h L v
  | .popFront => PopFront h L
  | .insertAfter i v => do
    let pos ← advance h (before_begin L) i
    let r ← InsertAfter h L pos v
    pure (r.1, r.2.1)
  | .eraseAfter i => do
    let pos ← advance h (before_begin L) i
    let r ← EraseAfter h L pos
    pure (r.1, r.2.1)
  | .clear => Clear h L

/-- Run a sequence of mutating calls on one list. -/
def applyAll (h : Heap T) (L : SingleLinkedList) :
    List (Mutation T) → Except Fault (Heap T × SingleLinkedList)
  | [] => pure (h, L)
  | m :: ms => do
    let r ← m.apply h L
    applyAll r.1 r.2 ms

/-- A memory holding one empty list, its sentinel at address 0. -/
def demoEmptyHeap : Heap Int := [some ⟨0, none⟩]

/-- The empty list of `demoEmptyHeap`. -/
def demoE : SingleLinkedList := ⟨0, 0⟩

/-- A memory holding two lists `[1, 2, 3]`, behind the sentinels at addresses 0 and 4. -/
def demoHeap3 : Heap Int :=
  [some ⟨0, some 1⟩, some ⟨1, some 2⟩, some ⟨2, some 3⟩, some ⟨3, none⟩,
   some ⟨0, some 5⟩, some ⟨1, some 6⟩, some ⟨2, some 7⟩, some ⟨3, none⟩]

/-- The first list `[1, 2, 3]` of `demoHeap3`. -/
def demoF : SingleLinkedList := ⟨0, 3⟩

/-- The second list `[1, 2, 3]` of `demoHeap3`. -/
def demoG : SingleLinkedList := ⟨4, 3⟩

/-- A chain of the list `L` and a chain `fo` starting at address `q` that shares no node
with it. -/
def Apart (h : Heap T) (L : SingleLinkedList) (fl : List (Nat × T)) (q : Nat)
    (fo : List (Nat × T)) : Prop :=
  Seg h (some L.head_) fl none ∧ Seg h (some q) fo none ∧ ∀ x ∈ fl, ∀ y ∈ fo, x.1 ≠ y.1

/-! ## Memory lemmas -/

theorem SIZE_MOD_eq : SIZE_MOD = 2 ^ 64 := rfl

theorem load_eq_ok {h : Heap T} {a : Nat} {n : Node T} :
    h.load a = .ok n ↔ h[a]? = some (some n) := by
  unfold Heap.load
  split
  · rename_i m hm
    simp [hm]
  · rename_i hm
    constructor
    · intro hh; cases hh
    · intro hh; exact absurd hh (hm n)

theorem load_lt {h : Heap T} {a : Nat} {n : Node T} (hl : h.load a = .ok n) : a < h.length := by
  rw [load_eq_ok] at hl
  by_contra hc
  rw [List.getElem?_eq_none (by omega)] at hl
  cases hl

theorem load_store_same {h : Heap T} {a : Nat} (n : Node T) (ha : a < h.length) :
    (h.store a n).load a = .ok n := by
  rw [load_eq_ok]; simp [Heap.store, ha]

theorem load_store_other {h : Heap T} {a b : Nat} (n : Node T) (hab : a ≠ b) :
    (h.store a n).load b = h.load b := by
  simp [Heap.load, Heap.store, List.getElem?_set_ne hab]

theorem load_alloc_old {h : Heap T} {a : Nat} (n : Node T) (ha : a < h.length) :
    (h.alloc n).1.load a = h.load a := by
  simp [Heap.load, Heap.alloc, List.getElem?_append_left ha]

theorem load_alloc_new (h : Heap T) (n : Node T) :
    (h.alloc n).1.load (h.alloc n).2 = .ok n := by
  rw [load_eq_ok]; simp [Heap.alloc]

theorem length_store (h : Heap T) (a : Nat) (n : Node T) : (h.store a n).length = h.length := by
  simp [Heap.store]

theorem length_alloc (h : Heap T) (n : Node T) : (h.alloc n).1.length = h.length + 1 := by
  simp [Heap.alloc]

theorem delete_eq_ok {h : Heap T} {a : Nat} {n : Node T} (hl : h.load a = .ok n) :
    h.delete (some a) = .ok (h.set a none) := by
  rw [load_eq_ok] at hl
  simp [Heap.delete, hl]

theorem load_set_none_other {h : Heap T} {a b : Nat} (hab : a ≠ b) :
    Heap.load (h.set a none) b = h.load b := by
  simp [Heap.load, List.getElem?_set_ne hab]

theorem seg_append {h : Heap T} {l1 l2 : List (Nat × T)} {p q : Option Nat} :
    Seg h p (l1 ++ l2) q ↔ ∃ m, Seg h p l1 m ∧ Seg h m l2 q := by
  induction l1 generalizing p with
  | nil => simp [Seg]
  | cons x l1 ih =>
    obtain ⟨a, v⟩ := x
    constructor
    · intro hs
      obtain ⟨hp, nx, hl, hr⟩ : Seg h p ((a, v) :: (l1 ++ l2)) q := hs
      obtain ⟨m, h1, h2⟩ := ih.1 hr
      exact ⟨m, ⟨hp, nx, hl, h1⟩, h2⟩
    · rintro ⟨m, ⟨hp, nx, hl, h1⟩, h2⟩
      exact (⟨hp, nx, hl, ih.2 ⟨m, h1, h2⟩⟩ : Seg h p ((a, v) :: (l1 ++ l2)) q)

theorem seg_frame {h h' : Heap T} {l : List (Nat × T)} {p q : Option Nat}
    (hf : ∀ x ∈ l, h'.load x.1 = h.load x.1) (hs : Seg h p l q) : Seg h' p l q := by
  induction l generalizing p with
  | nil => exact hs
  | cons x l ih =>
    obtain ⟨a, v⟩ := x
    obtain ⟨hp, nx, hl, hr⟩ := hs
    refine ⟨hp, nx, ?_, ih (fun y hy => hf y (List.mem_cons_of_mem _ hy)) hr⟩
    rw [hf (a, v) (List.mem_cons_self _ _)]; exact hl

theorem seg_lt {h : Heap T} {l : List (Nat × T)} {p q : Option Nat}
    (hs : Seg h p l q) : ∀ x ∈ l, x.1 < h.length := by
  induction l generalizing p with
  | nil => simp
  | cons x l ih =>
    obtain ⟨a, v⟩ := x
    obtain ⟨_, nx, hl, hr⟩ := hs
    intro y hy
    rcases List.mem_cons.1 hy with rfl | hy
    · exact load_lt hl
    · exact ih hr y hy

theorem seg_det {h : Heap T} {l1 l2 : List (Nat × T)} {p : Option Nat}
    (h1 : Seg h p l1 none) (h2 : Seg h p l2 none) : l1 = l2 := by
  induction l1 generalizing p l2 with
  | nil =>
    cases l2 with
    | nil => rfl
    | cons y l2 =>
      obtain ⟨hp, _⟩ := h2
      simp only [Seg] at h1
      rw [h1] at hp; cases hp
  | cons x l1 ih =>
    obtain ⟨a, v⟩ := x
    obtain ⟨hp, nx, hl, hr⟩ := h1
    cases l2 with
    | nil =>
      simp only [Seg] at h2
      rw [h2] at hp; cases hp
    | cons y l2 =>
      obtain ⟨b, w⟩ := y
      obtain ⟨hp2, nx2, hl2, hr2⟩ := h2
      rw [hp] at hp2
      cases hp2
      rw [hl] at hl2
      cases hl2
      rw [ih hr hr2]

theorem seg_not_mem {h : Heap T} {l : List (Nat × T)} {a : Nat} {v : T} {p : Option Nat}
    (hs : Seg h p ((a, v) :: l) none) : ∀ x ∈ l, x.1 ≠ a := by
  intro x hx hxa
  obtain ⟨l1, l2, rfl⟩ := List.append_of_mem hx
  obtain ⟨hp, nx, hl, hr⟩ := hs
  obtain ⟨m, _, h2⟩ := seg_append.1 hr
  obtain ⟨b, w⟩ := x
  simp only at hxa
  subst hxa
  have h2' := h2
  obtain ⟨hm, nx2, hl2, hr2⟩ := h2
  have hw : w = v := by rw [hl] at hl2; cases hl2; rfl
  subst hw
  have key : Seg h (some b) ((b, w) :: (l1 ++ (b, w) :: l2)) none :=
    ⟨rfl, nx, hl, seg_append.2 ⟨m, by assumption, h2'⟩⟩
  have key2 : Seg h (some b) ((b, w) :: l2) none := ⟨rfl, nx2, hl2, hr2⟩
  have := congrArg List.length (seg_det key key2)
  simp at this
  omega

theorem seg_nodup {h : Heap T} {l : List (Nat × T)} {p : Option Nat}
    (hs : Seg h p l none) : (l.map Prod.fst).Nodup := by
  induction l generalizing p with
  | nil => simp
  | cons x l ih =>
    obtain ⟨a, v⟩ := x
    have hn := seg_not_mem hs
    obtain ⟨_, nx, _, hr⟩ := hs
    rw [List.map_cons, List.nodup_cons]
    refine ⟨?_, ih hr⟩
    intro hmem
    obtain ⟨y, hy, hya⟩ := List.mem_map.1 hmem
    exact hn y hy hya

theorem seg_length_le {h : Heap T} {l : List (Nat × T)} {p : Option Nat}
    (hs : Seg h p l none) : l.length ≤ h.length := by
  have hnd := seg_nodup hs
  have hsub : l.map Prod.fst ⊆ List.range h.length := by
    intro a ha
    obtain ⟨y, hy, rfl⟩ := List.mem_map.1 ha
    exact List.mem_range.2 (seg_lt hs y hy)
  have := (List.subperm_of_subset hnd hsub).length_le
  simpa using this

theorem incr_some {h : Heap T} {a : Nat} {n : Node T} (hl : h.load a = .ok n) :
    BasicIterator.incr h ⟨some a⟩ = .ok ⟨n.next_node⟩ := by
  simp [BasicIterator.incr, hl, bind, Except.bind, pure, Except.pure]

theorem deref_some {h : Heap T} {a : Nat} {n : Node T} (hl : h.load a = .ok n) :
    BasicIterator.deref h ⟨some a⟩ = .ok n.value := by
  simp [BasicIterator.deref, hl, bind, Except.bind, pure, Except.pure]

theorem collect_of_seg {h : Heap T} {ns : List (Nat × T)} {p : Option Nat}
    (hs : Seg h p ns none) : ∀ fuel, ns.length < fuel →
      collect h fuel ⟨p⟩ = .ok (ns.map Prod.snd) := by
  induction ns generalizing p with
  | nil =>
    intro fuel hf
    obtain ⟨f, rfl⟩ : ∃ f, fuel = f + 1 := ⟨fuel - 1, by simp at hf; omega⟩
    simp only [Seg] at hs
    subst hs
    simp [collect, end_, pure, Except.pure]
  | cons x ns ih =>
    obtain ⟨a, v⟩ := x
    obtain ⟨hp, nx, hl, hr⟩ := hs
    subst hp
    intro fuel hf
    obtain ⟨f, rfl⟩ : ∃ f, fuel = f + 1 := ⟨fuel - 1, by simp at hf; omega⟩
    have hrec := ih hr f (by simp at hf; omega)
    simp only [collect, end_, incr_some hl, deref_some hl]
    simp [hrec, bind, Except.bind, pure, Except.pure]

theorem seg_of_collect {h : Heap T} : ∀ (fuel : Nat) (p : Option Nat) (s : List T),
    collect h fuel ⟨p⟩ = .ok s → ∃ ns, Seg h p ns none ∧ ns.map Prod.snd = s := by
  intro fuel
  induction fuel with
  | zero => intro p s hc; simp [collect] at hc
  | succ f ih =>
    intro p s hc
    cases p with
    | none =>
      simp [collect, end_, pure, Except.pure] at hc
      exact ⟨[], rfl, by simpa using hc⟩
    | some a =>
      cases hl : h.load a with
      | error e =>
        simp [collect, end_, BasicIterator.deref, hl, bind, Except.bind] at hc
      | ok n =>
        simp only [collect, end_, incr_some hl, deref_some hl] at hc
        cases hrec : collect h f ⟨n.next_node⟩ with
        | error e => simp [hrec, bind, Except.bind] at hc
        | ok rest =>
          simp [hrec, bind, Except.bind, pure, Except.pure] at hc
          obtain ⟨ns, hs, hm⟩ := ih _ _ hrec
          refine ⟨(a, n.value) :: ns, ⟨rfl, n.next_node, hl, hs⟩, ?_⟩
          simp [hm, hc]

theorem seg_some_cons {h : Heap T} {l : List (Nat × T)} {a : Nat}
    (hs : Seg h (some a) l none) : ∃ d ns, l = (a, d) :: ns := by
  cases l with
  | nil => simp [Seg] at hs
  | cons x ns =>
    obtain ⟨b, d⟩ := x
    obtain ⟨hp, _⟩ := hs
    cases hp
    exact ⟨d, ns, rfl⟩

theorem elements_of_seg {h : Heap T} {L : SingleLinkedList} {full : List (Nat × T)}
    (hs : Seg h (some L.head_) full none) : elements h L = .ok (full.map Prod.snd).tail := by
  obtain ⟨d, ns, rfl⟩ := seg_some_cons hs
  have hlen := seg_length_le hs
  obtain ⟨_, nx, hl, hr⟩ := hs
  have := collect_of_seg hr (h.length + 1) (by simp at hlen; omega)
  simp [elements, begin, hl, this, bind, Except.bind, pure, Except.pure]

theorem seg_of_elements {h : Heap T} {L : SingleLinkedList} {s : List T}
    (he : elements h L = .ok s) :
    ∃ d ns, Seg h (some L.head_) ((L.head_, d) :: ns) none ∧ ns.map Prod.snd = s := by
  cases hl : h.load L.head_ with
  | error e => simp [elements, begin, hl, bind, Except.bind] at he
  | ok hd =>
    simp only [elements, begin, hl, bind, Except.bind, pure, Except.pure] at he
    obtain ⟨ns, hs, hm⟩ := seg_of_collect _ _ _ he
    exact ⟨hd.value, ns, ⟨rfl, hd.next_node, hl, hs⟩, hm⟩

theorem advance_of_seg {h : Heap T} {l : List (Nat × T)} {p q : Option Nat}
    (hs : Seg h p l q) : advance h ⟨p⟩ l.length = .ok ⟨q⟩ := by
  induction l generalizing p with
  | nil =>
    simp only [Seg] at hs
    subst hs; rfl
  | cons x l ih =>
    obtain ⟨a, v⟩ := x
    obtain ⟨hp, nx, hl, hr⟩ := hs
    subst hp
    simp only [List.length_cons, advance, incr_some hl]
    simpa [bind, Except.bind] using ih hr

theorem seg_split_ne {h : Heap T} {l1 l2 : List (Nat × T)} {a : Nat} {w : T} {p : Option Nat}
    (hs : Seg h p (l1 ++ (a, w) :: l2) none) :
    (∀ x ∈ l1, x.1 ≠ a) ∧ (∀ x ∈ l2, x.1 ≠ a) := by
  have hnd := seg_nodup hs
  rw [List.map_append, List.map_cons, List.nodup_append] at hnd
  obtain ⟨_, h2, h3⟩ := hnd
  rw [List.nodup_cons] at h2
  constructor
  · intro x hx hxa
    exact h3 (List.mem_map.2 ⟨x, hx, rfl⟩) (by rw [hxa]; exact List.mem_cons_self _ _)
  · intro x hx hxa
    exact h2.1 (List.mem_map.2 ⟨x, hx, hxa⟩)

theorem load_insert_other {h : Heap T} {a b : Nat} (n m : Node T) (hab : b ≠ a)
    (hb : b < h.length) : ((h.alloc n).1.store a m).load b = h.load b := by
  rw [load_store_other m (Ne.symm hab), load_alloc_old n hb]

theorem insertAfter_seg {h : Heap T} (L : SingleLinkedList) {l1 l2 : List (Nat × T)}
    {a : Nat} {w : T} {p : Option Nat} (v : T)
    (hs : Seg h p (l1 ++ (a, w) :: l2) none) :
    ∃ h', InsertAfter h L ⟨some a⟩ v
        = .ok (h', { L with size_ := (L.size_ + 1) % SIZE_MOD }, ⟨some h.length⟩)
      ∧ Seg h' p (l1 ++ (a, w) :: (h.length, v) :: l2) none
      ∧ h'.length = h.length + 1
      ∧ (∀ c, c ≠ a → c < h.length → h'.load c = h.load c) := by
  obtain ⟨hn1, hn2⟩ := seg_split_ne hs
  have hlt := seg_lt hs
  obtain ⟨m, hs1, hs2⟩ := seg_append.1 hs
  obtain ⟨hm, nx, hl, hr⟩ := hs2
  have ha : a < h.length := load_lt hl
  refine ⟨((h.alloc ⟨v, nx⟩).1.store a ⟨w, some h.length⟩), ?_, ?_, ?_,
    fun c hca hc => load_insert_other _ _ hca hc⟩
  · simp [InsertAfter, hl, bind, Except.bind, pure, Except.pure, Heap.alloc]
  · refine seg_append.2 ⟨m, seg_frame ?_ hs1, hm, some h.length, ?_, rfl, nx, ?_, seg_frame ?_ hr⟩
    · intro x hx
      exact load_insert_other _ _ (hn1 x hx) (hlt x (List.mem_append_left _ hx))
    · exact load_store_same _ (by rw [length_alloc]; omega)
    · rw [load_store_other _ (by omega)]
      exact load_alloc_new h _
    · intro x hx
      exact load_insert_other _ _ (hn2 x hx)
        (hlt x (List.mem_append_right _ (List.mem_cons_of_mem _ hx)))
  · rw [length_store, length_alloc]

theorem load_erase_other {h : Heap T} {a b c : Nat} (m : Node T) (hca : c ≠ a) (hcb : c ≠ b) :
    Heap.load ((h.store a m).set b none) c = h.load c := by
  rw [load_set_none_other (Ne.symm hcb), load_store_other m (Ne.symm hca)]

theorem eraseAfter_seg {h : Heap T} (L : SingleLinkedList) {l1 l2 : List (Nat × T)}
    {a b : Nat} {w u : T} {p : Option Nat}
    (hs : Seg h p (l1 ++ (a, w) :: (b, u) :: l2) none) :
    ∃ h' nx, EraseAfter h L ⟨some a⟩
        = .ok (h', { L with size_ := (L.size_ + SIZE_MOD - 1) % SIZE_MOD }, ⟨nx⟩)
      ∧ Seg h' p (l1 ++ (a, w) :: l2) none
      ∧ Seg h' nx l2 none
      ∧ h'.length = h.length := by
  obtain ⟨hn1, hn2⟩ := seg_split_ne hs
  have hs' : Seg h p ((l1 ++ [(a, w)]) ++ (b, u) :: l2) none := by simpa using hs
  obtain ⟨hb1, hb2⟩ := seg_split_ne hs'
  have hab : a ≠ b := hb1 (a, w) (by simp)
  obtain ⟨m, hs1, hs2⟩ := seg_append.1 hs
  obtain ⟨hm, nxa, hla, hra⟩ := hs2
  obtain ⟨hnb, nxb, hlb, hrb⟩ := hra
  subst hnb
  have ha : a < h.length := load_lt hla
  have hlb' : (h.store a ⟨w, nxb⟩).load b = .ok ⟨u, nxb⟩ := by
    rw [load_store_other _ hab]; exact hlb
  have hla' : Heap.load ((h.store a ⟨w, nxb⟩).set b none) a = .ok ⟨w, nxb⟩ := by
    rw [load_set_none_other (Ne.symm hab)]; exact load_store_same _ ha
  have hfr : Seg ((h.store a ⟨w, nxb⟩).set b none) nxb l2 none := by
    refine seg_frame ?_ hrb
    intro x hx
    exact load_erase_other _ (hn2 x (List.mem_cons_of_mem _ hx)) (hb2 x hx)
  refine ⟨(h.store a ⟨w, nxb⟩).set b none, nxb, ?_, ?_, hfr, ?_⟩
  · simp [EraseAfter, hla, hlb, delete_eq_ok hlb', hla', bind, Except.bind, pure, Except.pure]
  · refine seg_append.2 ⟨m, seg_frame ?_ hs1, hm, nxb, hla', hfr⟩
    intro x hx
    exact load_erase_other _ (hn1 x hx) (hb1 x (List.mem_append_left _ hx))
  · simp [Heap.store]

theorem std_equal_of_seg [DecidableEq T] {h : Heap T} {l1 : List (Nat × T)} :
    ∀ {l2 : List (Nat × T)} {p1 p2 : Option Nat}, Seg h p1 l1 none → Seg h p2 l2 none →
      ∀ fuel, l1.length < fuel →
      std_equal h end_ end_ fuel ⟨p1⟩ ⟨p2⟩ = .ok (decide (l1.map Prod.snd = l2.map Prod.snd)) := by
  induction l1 with
  | nil =>
    intro l2 p1 p2 h1 h2 fuel hf
    obtain ⟨f, rfl⟩ : ∃ f, fuel = f + 1 := ⟨fuel - 1, by simp at hf; omega⟩
    simp only [Seg] at h1
    subst h1
    cases l2 with
    | nil =>
      simp only [Seg] at h2
      subst h2
      simp [std_equal, end_, pure, Except.pure]
    | cons y l2 =>
      obtain ⟨hp, _⟩ := h2
      subst hp
      simp [std_equal, end_, pure, Except.pure]
  | cons x l1 ih =>
    intro l2 p1 p2 h1 h2 fuel hf
    obtain ⟨f, rfl⟩ : ∃ f, fuel = f + 1 := ⟨fuel - 1, by simp at hf; omega⟩
    obtain ⟨a, v⟩ := x
    obtain ⟨hp, nx, hl, hr⟩ := h1
    subst hp
    cases l2 with
    | nil =>
      simp only [Seg] at h2
      subst h2
      simp [std_equal, end_, pure, Except.pure]
    | cons y l2 =>
      obtain ⟨b, w⟩ := y
      obtain ⟨hp2, nx2, hl2, hr2⟩ := h2
      subst hp2
      have hrec := ih hr hr2 f (by simp at hf; omega)
      simp only [end_] at hrec
      simp only [std_equal, end_, incr_some hl, deref_some hl, incr_some hl2, deref_some hl2]
      by_cases hvw : v = w
      · subst hvw
        simp [hrec, bind, Except.bind, pure, Except.pure]
      · simp [hvw, bind, Except.bind, pure, Except.pure]

theorem lex_of_seg [LT T] [DecidableRel (fun a b : T => a < b)] {h : Heap T}
    {l1 : List (Nat × T)} :
    ∀ {l2 : List (Nat × T)} {p1 p2 : Option Nat}, Seg h p1 l1 none → Seg h p2 l2 none →
      ∀ fuel, l1.length < fuel →
      std_lexicographical_compare h end_ end_ fuel ⟨p1⟩ ⟨p2⟩
        = .ok (lexCompare (l1.map Prod.snd) (l2.map Prod.snd)) := by
  induction l1 with
  | nil =>
    intro l2 p1 p2 h1 h2 fuel hf
    obtain ⟨f, rfl⟩ : ∃ f, fuel = f + 1 := ⟨fuel - 1, by simp at hf; omega⟩
    simp only [Seg] at h1
    subst h1
    cases l2 with
    | nil =>
      simp only [Seg] at h2
      subst h2
      simp [std_lexicographical_compare, lexCompare, end_, pure, Except.pure]
    | cons y l2 =>
      obtain ⟨hp, _⟩ := h2
      subst hp
      simp [std_lexicographical_compare, lexCompare, end_, pure, Except.pure]
  | cons x l1 ih =>
    intro l2 p1 p2 h1 h2 fuel hf
    obtain ⟨f, rfl⟩ : ∃ f, fuel = f + 1 := ⟨fuel - 1, by simp at hf; omega⟩
    obtain ⟨a, v⟩ := x
    obtain ⟨hp, nx, hl, hr⟩ := h1
    subst hp
    cases l2 with
    | nil =>
      simp only [Seg] at h2
      subst h2
      simp [std_lexicographical_compare, lexCompare, end_, pure, Except.pure]
    | cons y l2 =>
      obtain ⟨b, w⟩ := y
      obtain ⟨hp2, nx2, hl2, hr2⟩ := h2
      subst hp2
      have hrec := ih hr hr2 f (by simp at hf; omega)
      simp only [end_] at hrec
      simp only [std_lexicographical_compare, end_, incr_some hl, deref_some hl,
        incr_some hl2, deref_some hl2, List.map_cons, lexCompare]
      by_cases h1 : v < w
      · simp [h1, bind, Except.bind, pure, Except.pure]
      · by_cases h2 : w < v
        · simp [h1, h2, bind, Except.bind, pure, Except.pure]
        · simp [h1, h2, hrec, bind, Except.bind, pure, Except.pure]

theorem begin_of_seg {h : Heap T} {L : SingleLinkedList} {d : T} {ns : List (Nat × T)}
    (hs : Seg h (some L.head_) ((L.head_, d) :: ns) none) :
    ∃ nx, begin h L = .ok ⟨nx⟩ ∧ Seg h nx ns none ∧ ns.length < h.length := by
  have hlen := seg_length_le hs
  obtain ⟨_, nx, hl, hr⟩ := hs
  refine ⟨nx, ?_, hr, by simpa using hlen⟩
  simp [begin, hl, bind, Except.bind, pure, Except.pure]

theorem operator_eq_of_elements [DecidableEq T] {h : Heap T} {a b : SingleLinkedList}
    {sa sb : List T} (ha : elements h a = .ok sa) (hb : elements h b = .ok sb) :
    operator_eq h a b = .ok (decide (sa = sb)) := by
  obtain ⟨da, na, hsa, rfl⟩ := seg_of_elements ha
  obtain ⟨db, nb, hsb, rfl⟩ := seg_of_elements hb
  obtain ⟨pa, hba, hca, hla⟩ := begin_of_seg hsa
  obtain ⟨pb, hbb, hcb, _⟩ := begin_of_seg hsb
  simp only [operator_eq, hba, hbb, bind, Except.bind]
  exact std_equal_of_seg hca hcb _ (by omega)

theorem operator_lt_of_elements [LT T] [DecidableRel (fun a b : T => a < b)] {h : Heap T}
    {a b : SingleLinkedList} {sa sb : List T}
    (ha : elements h a = .ok sa) (hb : elements h b = .ok sb) :
    operator_lt h a b = .ok (lexCompare sa sb) := by
  obtain ⟨da, na, hsa, rfl⟩ := seg_of_elements ha
  obtain ⟨db, nb, hsb, rfl⟩ := seg_of_elements hb
  obtain ⟨pa, hba, hca, hla⟩ := begin_of_seg hsa
  obtain ⟨pb, hbb, hcb, _⟩ := begin_of_seg hsb
  simp only [operator_lt, hba, hbb, bind, Except.bind]
  exact lex_of_seg hca hcb _ (by omega)

theorem lexCompare_iff [LinearOrder T] (sa sb : List T) :
    lexCompare sa sb = true ↔
      (∃ t, t ≠ [] ∧ sb = sa ++ t) ∨
      (∃ p x y ta tb, sa = p ++ x :: ta ∧ sb = p ++ y :: tb ∧ x < y) := by
  induction sa generalizing sb with
  | nil =>
    cases sb with
    | nil => simp [lexCompare]
    | cons y ys => simp [lexCompare]
  | cons x xs ih =>
    cases sb with
    | nil => simp [lexCompare]
    | cons y ys =>
      simp only [lexCompare]
      rcases lt_trichotomy x y with hxy | hxy | hxy
      · simp only [hxy, if_true, true_iff]
        exact Or.inr ⟨[], x, y, xs, ys, rfl, rfl, hxy⟩
      · subst hxy
        simp only [lt_irrefl, if_false, ih]
        constructor
        · rintro (⟨t, ht, rfl⟩ | ⟨p, u, v, ta, tb, rfl, rfl, huv⟩)
          · exact Or.inl ⟨t, ht, rfl⟩
          · exact Or.inr ⟨x :: p, u, v, ta, tb, rfl, rfl, huv⟩
        · rintro (⟨t, ht, he⟩ | ⟨p, u, v, ta, tb, h1, h2, huv⟩)
          · exact Or.inl ⟨t, ht, by simpa using he⟩
          · cases p with
            | nil =>
              simp at h1 h2
              obtain ⟨rfl, _⟩ := h1
              obtain ⟨rfl, _⟩ := h2
              exact absurd huv (lt_irrefl _)
            | cons q p =>
              simp at h1 h2
              obtain ⟨_, rfl⟩ := h1
              obtain ⟨_, rfl⟩ := h2
              exact Or.inr ⟨p, u, v, ta, tb, rfl, rfl, huv⟩
      · have hnot : ¬ x < y := not_lt.2 hxy.le
        simp only [hnot, hxy, if_false, if_true]
        constructor
        · intro hf; cases hf
        · rintro (⟨t, ht, he⟩ | ⟨p, u, v, ta, tb, h1, h2, huv⟩)
          · simp at he
            exact absurd hxy (by rw [he.1]; exact lt_irrefl _)
          · cases p with
            | nil =>
              simp at h1 h2
              obtain ⟨rfl, _⟩ := h1
              obtain ⟨rfl, _⟩ := h2
              exact absurd huv hnot
            | cons q p =>
              simp at h1 h2
              obtain ⟨rfl, _⟩ := h1
              obtain ⟨rfl, _⟩ := h2
              exact absurd hxy (lt_irrefl _)

theorem pushFront_eq_insertAfter (h : Heap T) (L : SingleLinkedList) (v : T) :
    PushFront h L v = (InsertAfter h L (before_begin L) v).map (fun r => (r.1, r.2.1)) := by
  cases hl : h.load L.head_ with
  | error e => simp [PushFront, InsertAfter, before_begin, hl, bind, Except.bind, Except.map]
  | ok hd =>
    simp [PushFront, InsertAfter, before_begin, hl, bind, Except.bind, Except.map, pure,
      Except.pure]

theorem size_succ_pred {n : Nat} (hn : n + 1 < SIZE_MOD) :
    ((n + 1) % SIZE_MOD + SIZE_MOD - 1) % SIZE_MOD = n := by
  rw [Nat.mod_eq_of_lt hn]
  have : n + 1 + SIZE_MOD - 1 = n + SIZE_MOD := by omega
  rw [this, Nat.add_mod_right, Nat.mod_eq_of_lt (by omega)]

theorem size_pred {n : Nat} (hn : n + 1 < SIZE_MOD) :
    (n + 1 + SIZE_MOD - 1) % SIZE_MOD = n := by
  have : n + 1 + SIZE_MOD - 1 = n + SIZE_MOD := by omega
  rw [this, Nat.add_mod_right, Nat.mod_eq_of_lt (by omega)]

theorem pushFront_seg {h : Heap T} (L : SingleLinkedList) {d : T} {ns : List (Nat × T)} (v : T)
    (hs : Seg h (some L.head_) ((L.head_, d) :: ns) none) :
    ∃ h', PushFront h L v = .ok (h', { L with size_ := (L.size_ + 1) % SIZE_MOD })
      ∧ InsertAfter h L (before_begin L) v
          = .ok (h', { L with size_ := (L.size_ + 1) % SIZE_MOD }, ⟨some h.length⟩)
      ∧ Seg h' (some L.head_) ((L.head_, d) :: (h.length, v) :: ns) none
      ∧ h'.length = h.length + 1 := by
  have hs0 : Seg h (some L.head_) ([] ++ (L.head_, d) :: ns) none := hs
  obtain ⟨h', h1, h2, h3, _⟩ := insertAfter_seg L v hs0
  refine ⟨h', ?_, h1, h2, h3⟩
  rw [pushFront_eq_insertAfter]
  simp only [before_begin, h1, Except.map]

theorem popFront_seg {h : Heap T} (L : SingleLinkedList) {d u : T} {b : Nat}
    {ns : List (Nat × T)} (hsz : L.size_ ≠ 0)
    (hs : Seg h (some L.head_) ((L.head_, d) :: (b, u) :: ns) none) :
    ∃ h', PopFront h L = .ok (h', { L with size_ := (L.size_ + SIZE_MOD - 1) % SIZE_MOD })
      ∧ Seg h' (some L.head_) ((L.head_, d) :: ns) none
      ∧ h'.length = h.length := by
  have hs0 : Seg h (some L.head_) ([] ++ (L.head_, d) :: (b, u) :: ns) none := hs
  obtain ⟨_, hn2⟩ := seg_split_ne hs0
  have hs' : Seg h (some L.head_) ([(L.head_, d)] ++ (b, u) :: ns) none := hs
  obtain ⟨hb1, hb2⟩ := seg_split_ne hs'
  have hab : L.head_ ≠ b := hb1 (L.head_, d) (by simp)
  obtain ⟨_, nxa, hla, hra⟩ := hs
  obtain ⟨hnb, nxb, hlb, hrb⟩ := hra
  subst hnb
  have ha : L.head_ < h.length := load_lt hla
  have hlb' : (h.store L.head_ ⟨d, nxb⟩).load b = .ok ⟨u, nxb⟩ := by
    rw [load_store_other _ hab]; exact hlb
  have hla' : Heap.load ((h.store L.head_ ⟨d, nxb⟩).set b none) L.head_ = .ok ⟨d, nxb⟩ := by
    rw [load_set_none_other (Ne.symm hab)]; exact load_store_same _ ha
  have hfr : Seg ((h.store L.head_ ⟨d, nxb⟩).set b none) nxb ns none := by
    refine seg_frame ?_ hrb
    intro x hx
    exact load_erase_other _ (hn2 x (List.mem_cons_of_mem _ hx)) (hb2 x hx)
  refine ⟨(h.store L.head_ ⟨d, nxb⟩).set b none, ?_, ⟨rfl, nxb, hla', hfr⟩, ?_⟩
  · simp [PopFront, IsEmpty, hsz, hla, hlb, delete_eq_ok hlb', bind, Except.bind, pure,
      Except.pure]
  · simp [Heap.store]

theorem clearLoop_seg {ns : List (Nat × T)} :
    ∀ {h : Heap T} (L : SingleLinkedList) {d : T},
      Seg h (some L.head_) ((L.head_, d) :: ns) none → L.size_ = ns.length →
      ns.length < SIZE_MOD → ∀ fuel, ns.length < fuel →
      ∃ h', ClearLoop h L fuel = .ok (h', { L with size_ := 0 })
        ∧ Seg h' (some L.head_) [(L.head_, d)] none ∧ h'.length = h.length
        ∧ (ns = [] → h' = h) := by
  induction ns with
  | nil =>
    intro h L d hs hsz _ fuel hf
    obtain ⟨f, rfl⟩ : ∃ f, fuel = f + 1 := ⟨fuel - 1, by simp at hf; omega⟩
    refine ⟨h, ?_, hs, rfl, fun _ => rfl⟩
    obtain ⟨_, nx, hl, hr⟩ := hs
    simp only [Seg] at hr
    subst hr
    have : L = { L with size_ := 0 } := by cases L; simp_all
    simp [ClearLoop, hl, bind, Except.bind, pure, Except.pure]
    exact this
  | cons x ns ih =>
    intro h L d hs hsz hcap fuel hf
    obtain ⟨f, rfl⟩ : ∃ f, fuel = f + 1 := ⟨fuel - 1, by simp at hf; omega⟩
    obtain ⟨b, u⟩ := x
    have hne : L.size_ ≠ 0 := by rw [hsz]; simp
    obtain ⟨h1, hp, hs1, hlen1⟩ := popFront_seg L hne hs
    have hsize : (L.size_ + SIZE_MOD - 1) % SIZE_MOD = ns.length := by
      rw [hsz]; exact size_pred (by simpa using hcap)
    obtain ⟨h2, hc, hs2, hlen2, _⟩ :=
      ih (h := h1) { L with size_ := (L.size_ + SIZE_MOD - 1) % SIZE_MOD } (d := d) hs1 hsize
        (by simp at hcap; omega) f (by simp at hf; omega)
    refine ⟨h2, ?_, hs2, by rw [hlen2, hlen1], fun hh => by cases hh⟩
    obtain ⟨_, nx, hl, hr⟩ := hs
    obtain ⟨hnx, _⟩ := hr
    subst hnx
    simp only [ClearLoop, hl, hp, bind, Except.bind]
    simpa using hc

theorem transferLoop_seg (data : List T) :
    ∀ {h : Heap T} (tmp : SingleLinkedList) {pre : List (Nat × T)} {a : Nat} {w : T}
      {p : Option Nat}, Seg h p (pre ++ [(a, w)]) none →
      ∃ h' ns it sz, TransferLoop h tmp ⟨some a⟩ data = .ok (h', { tmp with size_ := sz }, it)
        ∧ (tmp.size_ + data.length < SIZE_MOD → sz = tmp.size_ + data.length)
        ∧ Seg h' p (pre ++ (a, w) :: ns) none ∧ ns.map Prod.snd = data
        ∧ (∀ x ∈ ns, h.length ≤ x.1)
        ∧ (∀ c, c < h.length → (∀ x ∈ pre ++ [(a, w)], x.1 ≠ c) → h'.load c = h.load c)
        ∧ h.length ≤ h'.length := by
  induction data with
  | nil =>
    intro h tmp pre a w p hs
    exact ⟨h, [], ⟨some a⟩, tmp.size_, rfl, fun _ => rfl, hs, rfl, by simp,
      fun _ _ _ => rfl, le_refl _⟩
  | cons e rest ih =>
    intro h tmp pre a w p hs
    have hs0 : Seg h p (pre ++ (a, w) :: []) none := hs
    obtain ⟨h1, hins, hs1, hlen1, hfr1⟩ := insertAfter_seg tmp e hs0
    have hla : ∃ nx, h1.load a = .ok ⟨w, nx⟩ ∧ nx = some h.length := by
      obtain ⟨m, _, hm⟩ := seg_append.1 hs1
      obtain ⟨_, nx, hl, hr⟩ := hm
      obtain ⟨hnx, _⟩ := hr
      exact ⟨nx, hl, hnx⟩
    obtain ⟨nx, hla, rfl⟩ := hla
    have hs1' : Seg h1 p ((pre ++ [(a, w)]) ++ [(h.length, e)]) none := by simpa using hs1
    obtain ⟨h2, ns, it, sz, hloop, hsz, hs2, hmap, hfresh, hfr2, hlen2⟩ :=
      ih (h := h1) { tmp with size_ := (tmp.size_ + 1) % SIZE_MOD } hs1'
    refine ⟨h2, (h.length, e) :: ns, it, sz, ?_, ?_, by simpa using hs2, by simp [hmap], ?_, ?_,
      by omega⟩
    · simp only [TransferLoop, hins, incr_some hla, bind, Except.bind]
      exact hloop
    · intro hlt
      simp only [List.length_cons] at hlt
      have h1' : (tmp.size_ + 1) % SIZE_MOD = tmp.size_ + 1 := Nat.mod_eq_of_lt (by omega)
      have := hsz (by simp only [h1']; omega)
      simp only [h1'] at this
      simp only [List.length_cons]; omega
    · intro x hx
      rcases List.mem_cons.1 hx with rfl | hx
      · exact le_refl _
      · have := hfresh x hx
        omega
    · intro c hc hne
      have hca : c ≠ a := fun hh => hne (a, w) (by simp) hh.symm
      rw [hfr2 c (by omega) ?_, hfr1 c hca hc]
      intro x hx
      rcases List.mem_append.1 hx with hx | hx
      · exact hne x hx
      · simp at hx
        subst hx
        simp; omega

theorem ofValues_seg [Inhabited T] (h : Heap T) (s : List T) (hlen : s.length < SIZE_MOD) :
    ∃ h' ns, SingleLinkedList.ofValues h s = .ok (h', ⟨h.length, s.length⟩)
      ∧ Seg h' (some h.length) ((h.length, default) :: ns) none ∧ ns.map Prod.snd = s := by
  have hA : (h.alloc (⟨default, none⟩ : Node T)).1.length = h.length + 1 := length_alloc _ _
  have hs0 : Seg ((h.alloc (⟨default, none⟩ : Node T)).1.alloc (⟨default, none⟩ : Node T)).1
      (some (h.length + 1)) ([] ++ [(h.length + 1, (default : T))]) none := by
    refine ⟨rfl, none, ?_, rfl⟩
    have := load_alloc_new (h.alloc (⟨default, none⟩ : Node T)).1 (⟨default, none⟩ : Node T)
    simpa [Heap.alloc] using this
  obtain ⟨h2, ns, it, sz, hloop, hsz, hs2, hmap, hfresh, hfr2, hlen2⟩ :=
    transferLoop_seg s (⟨h.length + 1, 0⟩ : SingleLinkedList) hs0
  have hsz' : sz = s.length := by simpa using hsz (by simpa using hlen)
  subst hsz'
  have hlenB : ((h.alloc (⟨default, none⟩ : Node T)).1.alloc (⟨default, none⟩ : Node T)).1.length
      = h.length + 2 := by simp [Heap.alloc]
  rw [hlenB] at hfresh hfr2 hlen2
  have hL2 : h2.load h.length = .ok ⟨default, none⟩ := by
    rw [hfr2 h.length (by omega) (by simp)]
    rw [load_alloc_old _ (by rw [hA]; omega)]
    exact load_alloc_new h _
  obtain ⟨_, nx, hT2, hr2⟩ : Seg h2 (some (h.length + 1)) ((h.length + 1, default) :: ns) none :=
    hs2
  have hT3 : (h2.store h.length ⟨default, nx⟩).load (h.length + 1) = .ok ⟨default, nx⟩ := by
    rw [load_store_other _ (by omega)]; exact hT2
  have hT4 : ((h2.store h.length ⟨default, nx⟩).store (h.length + 1) ⟨default, none⟩).load
      (h.length + 1) = .ok ⟨default, none⟩ :=
    load_store_same _ (by rw [length_store]; omega)
  refine ⟨((h2.store h.length ⟨default, nx⟩).store (h.length + 1) ⟨default, none⟩).set
      (h.length + 1) none, ns, ?_, ⟨rfl, nx, ?_, seg_frame ?_ hr2⟩, hmap⟩
  · simp [Heap.alloc] at hloop
    simp [SingleLinkedList.ofValues, Transfer, SingleLinkedList.ctor, before_begin,
      Heap.alloc, hloop, swap, hT2, hL2, hT3, SingleLinkedList.dtor, Clear, ClearLoop, hT4,
      delete_eq_ok hT4, bind, Except.bind, pure, Except.pure]
  · rw [load_set_none_other (by omega), load_store_other _ (by omega)]
    exact load_store_same _ (by omega)
  · intro x hx
    have := hfresh x hx
    rw [load_set_none_other (by omega), load_store_other _ (by omega),
      load_store_other _ (by omega)]

theorem split_at {α : Type} (l : List α) (i : Nat) (hi : i < l.length) :
    ∃ l1 x l2, l = l1 ++ x :: l2 ∧ l1.length = i := by
  refine ⟨l.take i, l[i], l.drop (i + 1), ?_, ?_⟩
  · rw [← List.drop_eq_getElem_cons hi, List.take_append_drop]
  · simp; omega

theorem take_succ_append {α : Type} (m : List α) (x : α) (r : List α) :
    (m ++ x :: r).take (m.length + 1) = m ++ [x] := by
  have h : m ++ x :: r = (m ++ [x]) ++ r := by simp
  rw [h, List.take_append_eq_append_take]
  simp

theorem drop_succ_append {α : Type} (m : List α) (x : α) (r : List α) :
    (m ++ x :: r).drop (m.length + 1) = r := by
  have h : m ++ x :: r = (m ++ [x]) ++ r := by simp
  rw [h, List.drop_append_eq_append_drop]
  simp

theorem drop_succ_succ_append {α : Type} (m : List α) (x u : α) (r : List α) :
    (m ++ x :: u :: r).drop (m.length + 1 + 1) = r := by
  have h : m ++ x :: u :: r = (m ++ [x, u]) ++ r := by simp
  rw [h, List.drop_append_eq_append_drop]
  simp

theorem insert_values {d x v : T} {s m rest : List T} (hv : d :: s = m ++ x :: rest) :
    (m ++ x :: v :: rest).tail = s.take m.length ++ v :: s.drop m.length := by
  cases m with
  | nil =>
    simp at hv
    obtain ⟨rfl, rfl⟩ := hv
    simp
  | cons y m =>
    simp at hv
    obtain ⟨rfl, rfl⟩ := hv
    simp only [List.length_cons, take_succ_append, drop_succ_append]
    simp

theorem erase_values {d x u : T} {s m rest : List T} (hv : d :: s = m ++ x :: u :: rest) :
    (m ++ x :: rest).tail = s.take m.length ++ s.drop (m.length + 1) := by
  cases m with
  | nil =>
    simp at hv
    obtain ⟨rfl, rfl⟩ := hv
    simp
  | cons y m =>
    simp at hv
    obtain ⟨rfl, rfl⟩ := hv
    simp only [List.length_cons, take_succ_append, drop_succ_succ_append]
    simp

/-- The position reached from `before_begin()` by `i` increments, inside the chain. -/
theorem position_of_advance {h : Heap T} {L : SingleLinkedList} {full : List (Nat × T)}
    {i : Nat} {pos : BasicIterator} (hs : Seg h (some L.head_) full none)
    (hi : i < full.length) (hpos : advance h (before_begin L) i = .ok pos) :
    ∃ l1 a w l2, full = l1 ++ (a, w) :: l2 ∧ l1.length = i ∧ pos = ⟨some a⟩ := by
  obtain ⟨l1, x, l2, rfl, hlen⟩ := split_at full i hi
  obtain ⟨a, w⟩ := x
  obtain ⟨m, h1, h2⟩ := seg_append.1 hs
  obtain ⟨hm, _⟩ := h2
  subst hm
  have := advance_of_seg h1
  rw [hlen] at this
  simp only [before_begin] at hpos
  rw [this] at hpos
  cases hpos
  exact ⟨l1, a, w, l2, rfl, hlen, rfl⟩

/-! ## The claims -/

/-- Claim C1. The list constructed from a sequence `s` by the initializer-list constructor
(through `Transfer`) yields, iterated from `begin()` to `end()`, exactly the elements of `s`
in order, and `GetSize()` is the length of `s`. -/
theorem ofValues_elements [Inhabited T] (h : Heap T) (s : List T)
    (hlen : s.length < SIZE_MOD) :
    ∃ h' L, SingleLinkedList.ofValues h s = .ok (h', L)
      ∧ elements h' L = .ok s ∧ GetSize L = s.length := by
  obtain ⟨h', ns, hof, hs, hmap⟩ := ofValues_seg h s hlen
  refine ⟨h', _, hof, ?_, rfl⟩
  have := elements_of_seg (L := ⟨h.length, s.length⟩) hs
  simpa [hmap] using this

theorem ofValues_elements_witness :
    ([1, 2, 3] : List Int).length < SIZE_MOD ∧
    ∃ h' L, SingleLinkedList.ofValues ([] : Heap Int) [1, 2, 3] = .ok (h', L)
      ∧ elements h' L = .ok [1, 2, 3] ∧ GetSize L = 3 :=
  ⟨by decide, ofValues_elements [] [1, 2, 3] (by decide)⟩

/-- Claim C2. For lists `a` and `b` with element sequences `sa` and `sb`, `operator==`
returns `true` exactly when the sequences have the same length and agree at every index. -/
theorem operator_eq_spec [DecidableEq T] (h : Heap T) (a b : SingleLinkedList)
    (sa sb : List T) (ha : elements h a = .ok sa) (hb : elements h b = .ok sb) :
    ∃ r, operator_eq h a b = .ok r ∧
      (r = true ↔ (sa.length = sb.length ∧
        ∀ (i : Nat) (h1 : i < sa.length) (h2 : i < sb.length), sa[i] = sb[i])) := by
  refine ⟨_, operator_eq_of_elements ha hb, ?_⟩
  rw [decide_eq_true_iff]
  constructor
  · rintro rfl
    exact ⟨rfl, fun _ _ _ => rfl⟩
  · rintro ⟨hlen, hall⟩
    exact List.ext_getElem hlen hall

theorem operator_eq_spec_witness :
    elements demoHeap demoA = .ok [1, 2] ∧ elements demoHeap demoB = .ok [1, 2, 3] ∧
    ∃ r, operator_eq demoHeap demoA demoB = .ok r ∧
      (r = true ↔ (([1, 2] : List Int).length = ([1, 2, 3] : List Int).length ∧
        ∀ (i : Nat) (h1 : i < ([1, 2] : List Int).length)
          (h2 : i < ([1, 2, 3] : List Int).length),
          ([1, 2] : List Int)[i] = ([1, 2, 3] : List Int)[i])) :=
  ⟨rfl, rfl, operator_eq_spec demoHeap demoA demoB [1, 2] [1, 2, 3] rfl rfl⟩

/-- Claim C3. Over a linearly ordered element type, `operator<` on lists with element
sequences `sa` and `sb` returns `true` exactly when `sa` is a strict initial segment of `sb`,
or the sequences share an initial segment `p` after which the next element of `sa` is less
than the next element of `sb`. -/
theorem operator_lt_spec [LinearOrder T] (h : Heap T) (a b : SingleLinkedList)
    (sa sb : List T) (ha : elements h a = .ok sa) (hb : elements h b = .ok sb) :
    ∃ r, operator_lt h a b = .ok r ∧
      (r = true ↔
        ((∃ t, t ≠ [] ∧ sb = sa ++ t) ∨
         (∃ p x y ta tb, sa = p ++ x :: ta ∧ sb = p ++ y :: tb ∧ x < y))) :=
  ⟨_, operator_lt_of_elements ha hb, lexCompare_iff sa sb⟩

theorem operator_lt_spec_witness :
    operator_lt demoHeap demoA demoB = .ok true ∧
    operator_gt demoHeap2 demoC demoD = .ok true := by
  constructor
  · obtain ⟨r, hr, hiff⟩ := operator_lt_spec demoHeap demoA demoB [1, 2] [1, 2, 3] rfl rfl
    rw [hr, hiff.2 (Or.inl ⟨[3], by simp, rfl⟩)]
  · obtain ⟨r, hr, hiff⟩ := operator_lt_spec demoHeap2 demoD demoC [1, 2, 9] [1, 3] rfl rfl
    show operator_lt demoHeap2 demoD demoC = .ok true
    rw [hr, hiff.2 (Or.inr ⟨[1], 2, 3, [9], [], rfl, rfl, by decide⟩)]

/-- Claim C4. The remaining comparison operators are computed from `operator<` and
`operator==` alone: `a > b` is `b < a`, `a <= b` is the negation of `b < a`, `a >= b` is
the negation of `a < b`, and `a != b` is the negation of `a == b`. -/
theorem derived_operators [DecidableEq T] [LT T] [DecidableRel (fun a b : T => a < b)]
    (h : Heap T) (a b : SingleLinkedList) :
    operator_gt h a b = operator_lt h b a
      ∧ operator_le h a b = (operator_lt h b a).map not
      ∧ operator_ge h a b = (operator_lt h a b).map not
      ∧ operator_ne h a b = (operator_eq h a b).map not := by
  refine ⟨rfl, ?_, ?_, ?_⟩
  · unfold operator_le operator_gt
    cases operator_lt h b a <;> rfl
  · unfold operator_ge
    cases operator_lt h a b <;> rfl
  · unfold operator_ne
    cases operator_eq h a b <;> rfl

/-- Claim C5. After `PushFront(v)` on a list with element sequence `s`, the element at
`begin()` is `v`, the element sequence is `v` followed by `s`, and `GetSize()` has grown
by exactly one.  The list object after the call is the one the call was made on (same
sentinel), so it is that list, walked from its own sentinel, that holds `v` and then `s`. -/
theorem PushFront_spec (h : Heap T) (L : SingleLinkedList) (s : List T) (v : T)
    (hel : elements h L = .ok s) (hsz : GetSize L = s.length)
    (hcap : s.length + 1 < SIZE_MOD) :
    ∃ h' L', PushFront h L v = .ok (h', L')
      ∧ (∃ b, begin h' L' = .ok b ∧ b.deref h' = .ok v)
      ∧ elements h' L' = .ok (v :: s)
      ∧ GetSize L' = GetSize L + 1
      ∧ L'.head_ = L.head_
      ∧ elements h' L = .ok (v :: s) := by
  obtain ⟨d, ns, hs, rfl⟩ := seg_of_elements hel
  obtain ⟨h', hp, _, hs', _⟩ := pushFront_seg L v hs
  refine ⟨h', _, hp, ?_, ?_, ?_, rfl, ?_⟩
  · obtain ⟨_, nx, hl, hr⟩ := hs'
    obtain ⟨hnx, nx2, hl2, _⟩ := hr
    subst hnx
    refine ⟨⟨some h.length⟩, ?_, deref_some hl2⟩
    simp [begin, hl, bind, Except.bind, pure, Except.pure]
  · have := elements_of_seg (L := { L with size_ := (L.size_ + 1) % SIZE_MOD }) hs'
    simpa using this
  · simp only [GetSize] at hsz ⊢
    rw [hsz]
    exact Nat.mod_eq_of_lt hcap
  · have := elements_of_seg hs'
    simpa using this

theorem PushFront_spec_witness :
    elements demoHeap demoB = .ok [1, 2, 3] ∧ GetSize demoB = ([1, 2, 3] : List Int).length ∧
    ([1, 2, 3] : List Int).length + 1 < SIZE_MOD ∧
    ∃ h' L', PushFront demoHeap demoB (7 : Int) = .ok (h', L')
      ∧ (∃ b, begin h' L' = .ok b ∧ b.deref h' = .ok 7)
      ∧ elements h' L' = .ok [7, 1, 2, 3]
      ∧ GetSize L' = GetSize demoB + 1
      ∧ L'.head_ = demoB.head_
      ∧ elements h' demoB = .ok [7, 1, 2, 3] :=
  ⟨rfl, rfl, by rw [SIZE_MOD_eq]; decide,
    PushFront_spec demoHeap demoB [1, 2, 3] 7 rfl rfl (by rw [SIZE_MOD_eq]; decide)⟩

/-- Claim C6. `PushFront(v)` followed by `PopFront()` gives back the original element
sequence and the original size: the list object after the two calls is the original one
(same sentinel, same `size_`), and walking from its sentinel yields `s` again; in between,
the same list holds `v` followed by `s`. -/
theorem PushFront_PopFront (h : Heap T) (L : SingleLinkedList) (s : List T) (v : T)
    (hel : elements h L = .ok s) (hsz : GetSize L = s.length)
    (hcap : s.length + 1 < SIZE_MOD) :
    ∃ h1 L1 h2 L2, PushFront h L v = .ok (h1, L1) ∧ PopFront h1 L1 = .ok (h2, L2)
      ∧ elements h2 L2 = .ok s ∧ GetSize L2 = GetSize L
      ∧ L1.head_ = L.head_ ∧ elements h1 L = .ok (v :: s)
      ∧ L2 = L ∧ elements h2 L = .ok s := by
  obtain ⟨d, ns, hs, rfl⟩ := seg_of_elements hel
  obtain ⟨h1, hp, _, hs1, _⟩ := pushFront_seg L v hs
  simp only [GetSize] at hsz
  have hsz1 : (L.size_ + 1) % SIZE_MOD = (ns.map Prod.snd).length + 1 := by
    rw [hsz]; exact Nat.mod_eq_of_lt hcap
  have hne : (L.size_ + 1) % SIZE_MOD ≠ 0 := by rw [hsz1]; exact Nat.succ_ne_zero _
  obtain ⟨h2, hq, hs2, _⟩ :=
    popFront_seg { L with size_ := (L.size_ + 1) % SIZE_MOD } hne hs1
  dsimp only at hq hs2
  have hback : ((L.size_ + 1) % SIZE_MOD + SIZE_MOD - 1) % SIZE_MOD = L.size_ := by
    rw [hsz]
    exact size_succ_pred hcap
  refine ⟨h1, _, h2, _, hp, hq, ?_, ?_, rfl, ?_, ?_, ?_⟩
  · have := elements_of_seg
      (L := { head_ := L.head_,
              size_ := ((L.size_ + 1) % SIZE_MOD + SIZE_MOD - 1) % SIZE_MOD }) hs2
    simpa using this
  · show ((L.size_ + 1) % SIZE_MOD + SIZE_MOD - 1) % SIZE_MOD = L.size_
    exact hback
  · have := elements_of_seg hs1
    simpa using this
  · rw [hback]
  · have := elements_of_seg hs2
    simpa using this

theorem PushFront_PopFront_witness :
    elements demoHeap demoB = .ok [1, 2, 3] ∧ GetSize demoB = ([1, 2, 3] : List Int).length ∧
    ([1, 2, 3] : List Int).length + 1 < SIZE_MOD ∧
    ∃ h1 L1 h2 L2, PushFront demoHeap demoB (7 : Int) = .ok (h1, L1)
      ∧ PopFront h1 L1 = .ok (h2, L2)
      ∧ elements h2 L2 = .ok [1, 2, 3] ∧ GetSize L2 = GetSize demoB
      ∧ L1.head_ = demoB.head_ ∧ elements h1 demoB = .ok [7, 1, 2, 3]
      ∧ L2 = demoB ∧ elements h2 demoB = .ok [1, 2, 3] :=
  ⟨rfl, rfl, by rw [SIZE_MOD_eq]; decide,
    PushFront_PopFront demoHeap demoB [1, 2, 3] 7 rfl rfl (by rw [SIZE_MOD_eq]; decide)⟩

/-- Claim C7. `InsertAfter(before_begin(), v)` and `PushFront(v)` leave the same memory and
the same list object, hence the same element sequence and the same size. -/
theorem InsertAfter_before_begin (h : Heap T) (L : SingleLinkedList) (s : List T) (v : T)
    (hel : elements h L = .ok s) :
    ∃ h' L' it, InsertAfter h L (before_begin L) v = .ok (h', L', it)
      ∧ PushFront h L v = .ok (h', L')
      ∧ elements h' L' = .ok (v :: s) := by
  obtain ⟨d, ns, hs, rfl⟩ := seg_of_elements hel
  obtain ⟨h', hp, hi, hs', _⟩ := pushFront_seg L v hs
  refine ⟨h', _, _, hi, hp, ?_⟩
  have := elements_of_seg (L := { L with size_ := (L.size_ + 1) % SIZE_MOD }) hs'
  simpa using this

theorem InsertAfter_before_begin_witness :
    elements demoHeap demoA = .ok [1, 2] ∧
    ∃ h' L' it, InsertAfter demoHeap demoA (before_begin demoA) (5 : Int) = .ok (h', L', it)
      ∧ PushFront demoHeap demoA 5 = .ok (h', L')
      ∧ elements h' L' = .ok [5, 1, 2] :=
  ⟨rfl, InsertAfter_before_begin demoHeap demoA [1, 2] 5 rfl⟩

/-- Claim C8. For a position `pos` reached from `before_begin()` by `i` increments with
`i` at most the number of elements (the sentinel for `i = 0`, otherwise the `i`-th
element), `InsertAfter(pos, v)` puts `v` right after that position and keeps every other
element in order, raises `GetSize()` by one, and returns an iterator to the new node:
dereferencing it yields `v` and it is what `++pos` gives. -/
theorem InsertAfter_spec (h : Heap T) (L : SingleLinkedList) (s : List T) (i : Nat)
    (pos : BasicIterator) (v : T)
    (hel : elements h L = .ok s) (hsz : GetSize L = s.length)
    (hcap : s.length + 1 < SIZE_MOD) (hi : i ≤ s.length)
    (hpos : advance h (before_begin L) i = .ok pos) :
    ∃ h' L' it, InsertAfter h L pos v = .ok (h', L', it)
      ∧ elements h' L' = .ok (s.take i ++ v :: s.drop i)
      ∧ GetSize L' = GetSize L + 1
      ∧ it.deref h' = .ok v
      ∧ pos.incr h' = .ok it := by
  obtain ⟨d, ns, hs, rfl⟩ := seg_of_elements hel
  obtain ⟨l1, a, w, l2, hfull, hlen, rfl⟩ :=
    position_of_advance hs (by simp at hi ⊢; omega) hpos
  rw [hfull] at hs
  obtain ⟨h', hins, hs', _, _⟩ := insertAfter_seg L v hs
  refine ⟨h', _, _, hins, ?_, ?_, ?_, ?_⟩
  · have := elements_of_seg (L := { L with size_ := (L.size_ + 1) % SIZE_MOD }) hs'
    rw [this]
    have hv : d :: ns.map Prod.snd = l1.map Prod.snd ++ w :: l2.map Prod.snd := by
      have := congrArg (List.map Prod.snd) hfull
      simpa using this
    have := insert_values (v := v) hv
    simp only [List.length_map, hlen] at this
    simpa using this
  · simp only [GetSize] at hsz ⊢
    rw [hsz]
    exact Nat.mod_eq_of_lt hcap
  · obtain ⟨m, _, hm⟩ := seg_append.1 hs'
    obtain ⟨_, nx, _, hr⟩ := hm
    obtain ⟨_, nx2, hl2, _⟩ := hr
    exact deref_some hl2
  · obtain ⟨m, _, hm⟩ := seg_append.1 hs'
    obtain ⟨_, nx, hl, hr⟩ := hm
    obtain ⟨hnx, _⟩ := hr
    subst hnx
    exact incr_some hl

theorem InsertAfter_spec_witness :
    elements demoHeap demoB = .ok [1, 2, 3] ∧ GetSize demoB = ([1, 2, 3] : List Int).length ∧
    ([1, 2, 3] : List Int).length + 1 < SIZE_MOD ∧ 2 ≤ ([1, 2, 3] : List Int).length ∧
    advance demoHeap (before_begin demoB) 2 = .ok ⟨some 5⟩ ∧
    ∃ h' L' it, InsertAfter demoHeap demoB ⟨some 5⟩ (7 : Int) = .ok (h', L', it)
      ∧ elements h' L' = .ok [1, 2, 7, 3]
      ∧ GetSize L' = GetSize demoB + 1
      ∧ it.deref h' = .ok 7
      ∧ BasicIterator.incr h' ⟨some 5⟩ = .ok it :=
  ⟨rfl, rfl, by rw [SIZE_MOD_eq]; decide, by decide, rfl,
    InsertAfter_spec demoHeap demoB [1, 2, 3] 2 ⟨some 5⟩ 7 rfl rfl
      (by rw [SIZE_MOD_eq]; decide) (by decide) rfl⟩

/-- Claim C9. For a position `pos` reached from `before_begin()` by `i` increments that
has a following element (`i` below the number of elements), `EraseAfter(pos)` removes
exactly the element after `pos` and keeps the others in order, lowers `GetSize()` by one,
and returns the iterator to what now follows `pos` (the former next-but-one element);
when the removed element was the last one the returned iterator is `end()`. -/
theorem EraseAfter_spec (h : Heap T) (L : SingleLinkedList) (s : List T) (i : Nat)
    (pos : BasicIterator)
    (hel : elements h L = .ok s) (hsz : GetSize L = s.length)
    (hcap : s.length < SIZE_MOD) (hi : i < s.length)
    (hpos : advance h (before_begin L) i = .ok pos) :
    ∃ h' L' it, EraseAfter h L pos = .ok (h', L', it)
      ∧ elements h' L' = .ok (s.take i ++ s.drop (i + 1))
      ∧ GetSize L' + 1 = GetSize L
      ∧ pos.incr h' = .ok it
      ∧ (∀ (hlt : i + 1 < s.length), it.deref h' = .ok s[i + 1])
      ∧ (i + 1 = s.length → it = end_ ∧ elements h' L' = .ok s.dropLast) := by
  obtain ⟨d, ns, hs, rfl⟩ := seg_of_elements hel
  obtain ⟨l1, a, w, l2, hfull, hlen, rfl⟩ :=
    position_of_advance hs (by simp at hi ⊢; omega) hpos
  have hl2 : l2 ≠ [] := by
    intro hh
    have := congrArg List.length hfull
    simp [hh, hlen] at this hi
    omega
  obtain ⟨x, l3, rfl⟩ := List.exists_cons_of_ne_nil hl2
  obtain ⟨b, u⟩ := x
  rw [hfull] at hs
  obtain ⟨h', nx, her, hs', hs3, _⟩ := eraseAfter_seg L hs
  have hv : d :: ns.map Prod.snd = l1.map Prod.snd ++ w :: u :: l3.map Prod.snd := by
    have := congrArg (List.map Prod.snd) hfull
    simpa using this
  have hel' : elements h' { L with size_ := (L.size_ + SIZE_MOD - 1) % SIZE_MOD }
      = .ok ((ns.map Prod.snd).take i ++ (ns.map Prod.snd).drop (i + 1)) := by
    have := elements_of_seg
      (L := { L with size_ := (L.size_ + SIZE_MOD - 1) % SIZE_MOD }) hs'
    rw [this]
    have := erase_values hv
    simp only [List.length_map, hlen] at this
    simpa using this
  have hdrop : (ns.map Prod.snd).drop (i + 1) = l3.map Prod.snd := by
    cases l1 with
    | nil =>
      simp at hv hlen
      subst hlen
      rw [hv.2]; rfl
    | cons y m =>
      simp at hv hlen
      subst hlen
      rw [hv.2]
      have := drop_succ_succ_append (m.map Prod.snd) w u (l3.map Prod.snd)
      simpa using this
  refine ⟨h', _, _, her, hel', ?_, ?_, ?_, ?_⟩
  · simp only [GetSize] at hsz ⊢
    rw [hsz]
    obtain ⟨n, hn⟩ : ∃ n, (ns.map Prod.snd).length = n + 1 := ⟨_, (Nat.succ_pred_eq_of_pos
      (by omega)).symm⟩
    rw [hn] at hcap ⊢
    rw [size_pred hcap]
  · obtain ⟨m, _, hm⟩ := seg_append.1 hs'
    obtain ⟨_, nx', hl, hr⟩ := hm
    have hnx : nx' = nx := by
      cases l3 with
      | nil =>
        simp only [Seg] at hr hs3
        rw [hr, hs3]
      | cons y l4 =>
        obtain ⟨h1, _⟩ := hr
        obtain ⟨h2, _⟩ := hs3
        rw [h1, h2]
    subst hnx
    exact incr_some hl
  · intro hlt
    cases l3 with
    | nil =>
      have := congrArg List.length hdrop
      simp at this hlt
      omega
    | cons y l4 =>
      obtain ⟨c, z⟩ := y
      obtain ⟨hnx, nx3, hl3, _⟩ := hs3
      subst hnx
      rw [deref_some hl3]
      have hz : (ns.map Prod.snd)[i + 1]? = some z := by
        rw [← List.head?_drop, hdrop]; rfl
      rw [← List.getElem_eq_iff] at hz
      rw [← hz]
  · intro hlast
    have hl3 : l3 = [] := by
      have := congrArg List.length hdrop
      rw [List.length_drop, hlast] at this
      simp at this
      exact List.length_eq_zero.1 this.symm
    subst hl3
    simp only [Seg] at hs3
    subst hs3
    refine ⟨rfl, ?_⟩
    rw [hel', hdrop, List.dropLast_eq_take, ← hlast]
    simp

theorem EraseAfter_spec_witness :
    elements demoHeap demoB = .ok [1, 2, 3] ∧ GetSize demoB = ([1, 2, 3] : List Int).length ∧
    ([1, 2, 3] : List Int).length < SIZE_MOD ∧ 2 < ([1, 2, 3] : List Int).length ∧
    advance demoHeap (before_begin demoB) 2 = .ok ⟨some 5⟩ ∧
    ∃ h' L' it, EraseAfter demoHeap demoB ⟨some 5⟩ = .ok (h', L', it)
      ∧ elements h' L' = .ok [1, 2]
      ∧ GetSize L' + 1 = GetSize demoB
      ∧ BasicIterator.incr h' ⟨some 5⟩ = .ok it
      ∧ (∀ (hlt : 2 + 1 < ([1, 2, 3] : List Int).length),
          it.deref h' = .ok ([1, 2, 3] : List Int)[2 + 1])
      ∧ (2 + 1 = ([1, 2, 3] : List Int).length → it = end_ ∧ elements h' L' = .ok [1, 2]) :=
  ⟨rfl, rfl, by rw [SIZE_MOD_eq]; decide, by decide, rfl,
    EraseAfter_spec demoHeap demoB [1, 2, 3] 2 ⟨some 5⟩ rfl rfl
      (by rw [SIZE_MOD_eq]; decide) (by decide) rfl⟩

/-- Claim C10. After `Clear()` the list is empty: `IsEmpty()` is true, `GetSize()` is 0 and
`begin()` equals `end()`; on a list that is already empty `Clear()` changes neither the
memory nor the list object.  The list object after the call is the one the call was made
on (same sentinel): walking from the sentinel of that list meets no element. -/
theorem Clear_spec (h : Heap T) (L : SingleLinkedList) (s : List T)
    (hel : elements h L = .ok s) (hsz : GetSize L = s.length)
    (hcap : s.length < SIZE_MOD) :
    ∃ h' L', Clear h L = .ok (h', L')
      ∧ IsEmpty L' = true ∧ GetSize L' = 0
      ∧ begin h' L' = .ok end_
      ∧ elements h' L' = .ok []
      ∧ (s = [] → h' = h ∧ L' = L)
      ∧ L'.head_ = L.head_
      ∧ begin h' L = .ok end_
      ∧ elements h' L = .ok [] := by
  obtain ⟨d, ns, hs, rfl⟩ := seg_of_elements hel
  have hsz' : L.size_ = ns.length := by simpa using hsz
  obtain ⟨h', hc, hs', _, hnil⟩ :=
    clearLoop_seg L hs hsz' (by simpa using hcap) (L.size_ + 1) (by omega)
  have hbeg : begin h' L = .ok end_ := by
    obtain ⟨_, nx, hl, hr⟩ := hs'
    simp only [Seg] at hr
    subst hr
    simp [begin, end_, hl, bind, Except.bind, pure, Except.pure]
  have hempty : elements h' L = .ok [] := by
    have := elements_of_seg hs'
    simpa using this
  refine ⟨h', { L with size_ := 0 }, hc, rfl, rfl, ?_, ?_, ?_, rfl, hbeg, hempty⟩
  · obtain ⟨_, nx, hl, hr⟩ := hs'
    simp only [Seg] at hr
    subst hr
    simp [begin, end_, hl, bind, Except.bind, pure, Except.pure]
  · have := elements_of_seg (L := { L with size_ := 0 }) hs'
    simpa using this
  · intro hnil'
    have hns : ns = [] := by simpa using hnil'
    refine ⟨hnil hns, ?_⟩
    have h0 : L.size_ = 0 := by rw [hsz', hns]; rfl
    cases L
    simp only at h0
    subst h0
    rfl

theorem Clear_spec_witness :
    elements demoHeap demoB = .ok [1, 2, 3] ∧ GetSize demoB = ([1, 2, 3] : List Int).length ∧
    ([1, 2, 3] : List Int).length < SIZE_MOD ∧
    ∃ h' L', Clear demoHeap demoB = .ok (h', L')
      ∧ IsEmpty L' = true ∧ GetSize L' = 0
      ∧ begin h' L' = .ok end_
      ∧ elements h' L' = .ok []
      ∧ (([1, 2, 3] : List Int) = [] → h' = demoHeap ∧ L' = demoB)
      ∧ L'.head_ = demoB.head_
      ∧ begin h' demoB = .ok end_
      ∧ elements h' demoB = .ok [] :=
  ⟨rfl, rfl, by rw [SIZE_MOD_eq]; decide,
    Clear_spec demoHeap demoB [1, 2, 3] rfl rfl (by rw [SIZE_MOD_eq]; decide)⟩

theorem popFront_empty {h : Heap T} {L : SingleLinkedList} (hsz : L.size_ = 0) :
    PopFront h L = .error .assertion := by
  simp [PopFront, IsEmpty, hsz]

/-- Claim C15. On a list satisfying the size invariant, `PopFront()` fails its assertion
exactly when the list is empty; on a non-empty list it returns, removes the first element
only (so the former second element, if any, is the new first), and lowers `GetSize()` by
one.  The list object after the call is the one the call was made on (same sentinel):
walking from the sentinel of that list yields the remaining elements. -/
theorem PopFront_spec (h : Heap T) (L : SingleLinkedList) (s : List T)
    (hel : elements h L = .ok s) (hsz : GetSize L = s.length)
    (hcap : s.length < SIZE_MOD) :
    (PopFront h L = .error .assertion ↔ s = []) ∧
    (IsEmpty L = true ↔ s = []) ∧
    (∀ x rest, s = x :: rest →
      ∃ h' L', PopFront h L = .ok (h', L') ∧ elements h' L' = .ok rest
        ∧ GetSize L' + 1 = GetSize L
        ∧ (∀ y rest', rest = y :: rest' → ∃ b, begin h' L' = .ok b ∧ b.deref h' = .ok y)
        ∧ L'.head_ = L.head_
        ∧ elements h' L = .ok rest) := by
  obtain ⟨d, ns, hs, rfl⟩ := seg_of_elements hel
  have hsz' : L.size_ = ns.length := by simpa using hsz
  have hsucc : ∀ x rest, ns.map Prod.snd = x :: rest →
      ∃ h' L', PopFront h L = .ok (h', L') ∧ elements h' L' = .ok rest
        ∧ GetSize L' + 1 = GetSize L
        ∧ (∀ y rest', rest = y :: rest' →
            ∃ b, begin h' L' = .ok b ∧ b.deref h' = .ok y)
        ∧ L'.head_ = L.head_
        ∧ elements h' L = .ok rest := by
    intro x rest hx
    cases ns with
    | nil => simp at hx
    | cons n ns' =>
      obtain ⟨b, u⟩ := n
      simp only [List.map_cons, List.cons.injEq] at hx
      obtain ⟨rfl, rfl⟩ := hx
      have hne : L.size_ ≠ 0 := by rw [hsz']; simp
      obtain ⟨h', hp, hs', _⟩ := popFront_seg L hne hs
      have hrest : elements h' L = .ok (ns'.map Prod.snd) := by
        have := elements_of_seg hs'
        simpa using this
      refine ⟨h', _, hp, ?_, ?_, ?_, rfl, hrest⟩
      · have := elements_of_seg
          (L := { L with size_ := (L.size_ + SIZE_MOD - 1) % SIZE_MOD }) hs'
        simpa using this
      · show (L.size_ + SIZE_MOD - 1) % SIZE_MOD + 1 = L.size_
        rw [hsz']
        simp only [List.length_cons]
        rw [size_pred (by simpa using hcap)]
      · intro y rest' hy
        cases ns' with
        | nil => simp at hy
        | cons n2 ns2 =>
          obtain ⟨c, z⟩ := n2
          simp only [List.map_cons, List.cons.injEq] at hy
          obtain ⟨rfl, _⟩ := hy
          obtain ⟨_, nx, hl, hr⟩ := hs'
          obtain ⟨hnx, nx2, hl2, _⟩ := hr
          subst hnx
          refine ⟨⟨some c⟩, ?_, deref_some hl2⟩
          simp [begin, hl, bind, Except.bind, pure, Except.pure]
  refine ⟨?_, ?_, hsucc⟩
  · constructor
    · intro hfail
      cases hm : ns.map Prod.snd with
      | nil => rfl
      | cons x rest =>
        obtain ⟨h', L', hp, _⟩ := hsucc x rest hm
        rw [hp] at hfail
        cases hfail
    · intro hnil
      apply popFront_empty
      rw [hsz', ← List.length_map ns Prod.snd, hnil]
      rfl
  · simp only [IsEmpty, beq_iff_eq]
    rw [hsz']
    constructor
    · intro h0
      have : ns = [] := List.length_eq_zero.1 h0
      simp [this]
    · intro hnil
      have := congrArg List.length hnil
      simpa using this

theorem PopFront_spec_witness :
    elements demoHeap demoB = .ok [1, 2, 3] ∧ GetSize demoB = ([1, 2, 3] : List Int).length ∧
    ([1, 2, 3] : List Int).length < SIZE_MOD ∧
    ∃ h' L', PopFront demoHeap demoB = .ok (h', L') ∧ elements h' L' = .ok [2, 3]
      ∧ GetSize L' + 1 = GetSize demoB
      ∧ L'.head_ = demoB.head_
      ∧ elements h' demoB = .ok [2, 3] :=
  ⟨rfl, rfl, by rw [SIZE_MOD_eq]; decide, by
    obtain ⟨h', L', h1, h2, h3, _, h5, h6⟩ :=
      (PopFront_spec demoHeap demoB [1, 2, 3] rfl rfl (by rw [SIZE_MOD_eq]; decide)).2.2
        1 [2, 3] rfl
    exact ⟨h', L', h1, h2, h3, h5, h6⟩⟩

theorem eraseAfter_last_invalid {h : Heap T} {L : SingleLinkedList} {s : List T}
    {pos : BasicIterator} (hel : elements h L = .ok s)
    (hpos : advance h (before_begin L) s.length = .ok pos) :
    EraseAfter h L pos = .error .invalid := by
  obtain ⟨d, ns, hs, rfl⟩ := seg_of_elements hel
  obtain ⟨l1, a, w, l2, hfull, hlen, rfl⟩ :=
    position_of_advance hs (by simp) hpos
  have hl2 : l2 = [] := by
    have := congrArg List.length hfull
    simp only [List.length_map] at hlen
    simp only [List.length_cons, List.length_append] at this
    exact List.length_eq_zero.1 (by omega)
  subst hl2
  rw [hfull] at hs
  obtain ⟨m, _, hm⟩ := seg_append.1 hs
  obtain ⟨_, nx, hl, hr⟩ := hm
  simp only [Seg] at hr
  subst hr
  simp [EraseAfter, hl, bind, Except.bind]

/-- Claim C16, evaluated where it fails. `EraseAfter` at a position without a following
element (the sentinel of an empty list, the last element of `[1, 2, 3]`) passes
`assert(pos.node_)` and then reads through the null `next_node`: the outcome is the
invalid access, not the assertion failure; `PopFront` on the same empty list does stop at
its assertion. -/
theorem EraseAfter_without_next :
    EraseAfter demoEmptyHeap demoE (before_begin demoE) = .error .invalid
      ∧ advance demoHeap (before_begin demoB) 3 = .ok ⟨some 6⟩
      ∧ EraseAfter demoHeap demoB ⟨some 6⟩ = .error .invalid
      ∧ PopFront demoEmptyHeap demoE = .error .assertion :=
  ⟨rfl, rfl, rfl, rfl⟩

/-- Claim C17 as stated fails: dereferencing the iterator `before_begin()` (or
`cbefore_begin()`) of the list `[1, 2, 3]` passes the assertion and yields the value field
of the sentinel; `operator->` yields its address. -/
theorem deref_sentinel_not_rejected :
    (before_begin demoB).deref demoHeap = .ok 0
      ∧ (cbefore_begin demoB).deref demoHeap = .ok 0
      ∧ (before_begin demoB).arrow = .ok 3
      ∧ (cbefore_begin demoB).arrow = .ok 3 :=
  ⟨rfl, rfl, rfl, rfl⟩

/-- Claim C17, amended. Dereferencing `end()` (no node) with `operator*` or `operator->`
fails the assertion.  Dereferencing an iterator to the sentinel is not checked: the
assertion only tests `node_` for null, so `operator*` yields the value field of the
sentinel node and `operator->` its address. -/
theorem deref_checks_null_only (h : Heap T) (L : SingleLinkedList) (d : T)
    (nx : Option Nat) (hl : h.load L.head_ = .ok ⟨d, nx⟩) :
    end_.deref h = .error .assertion
      ∧ end_.arrow = .error .assertion
      ∧ (before_begin L).deref h = .ok d
      ∧ (cbefore_begin L).deref h = .ok d
      ∧ (before_begin L).arrow = .ok L.head_
      ∧ (cbefore_begin L).arrow = .ok L.head_ :=
  ⟨rfl, rfl, deref_some hl, deref_some hl, rfl, rfl⟩

theorem deref_checks_null_only_witness :
    demoHeap.load demoB.head_ = .ok ⟨0, some 4⟩ ∧
    (end_.deref demoHeap = .error .assertion
      ∧ end_.arrow = .error .assertion
      ∧ (before_begin demoB).deref demoHeap = .ok 0
      ∧ (cbefore_begin demoB).deref demoHeap = .ok 0
      ∧ (before_begin demoB).arrow = .ok demoB.head_
      ∧ (cbefore_begin demoB).arrow = .ok demoB.head_) :=
  ⟨rfl, deref_checks_null_only demoHeap demoB 0 (some 4) rfl⟩

theorem lexCompare_self [Preorder T] [DecidableRel (fun a b : T => a < b)] (s : List T) :
    lexCompare s s = false := by
  induction s with
  | nil => rfl
  | cons x xs ih => simp [lexCompare, ih]

/-- Claim C18. If `a == b` holds for two lists over a strictly ordered element type, then
neither `a < b` nor `a > b` holds. -/
theorem eq_excludes_lt_gt [DecidableEq T] [Preorder T] [DecidableRel (fun a b : T => a < b)]
    (h : Heap T) (a b : SingleLinkedList) (sa sb : List T)
    (ha : elements h a = .ok sa) (hb : elements h b = .ok sb)
    (heq : operator_eq h a b = .ok true) :
    operator_lt h a b = .ok false ∧ operator_gt h a b = .ok false := by
  rw [operator_eq_of_elements ha hb] at heq
  have hsame : sa = sb := by
    have : decide (sa = sb) = true := by injection heq
    exact of_decide_eq_true this
  subst hsame
  refine ⟨?_, ?_⟩
  · rw [operator_lt_of_elements ha hb, lexCompare_self]
  · show operator_lt h b a = .ok false
    rw [operator_lt_of_elements hb ha, lexCompare_self]

theorem eq_excludes_lt_gt_witness :
    elements demoHeap3 demoF = .ok [1, 2, 3] ∧ elements demoHeap3 demoG = .ok [1, 2, 3] ∧
    operator_eq demoHeap3 demoF demoG = .ok true ∧
    operator_lt demoHeap3 demoF demoG = .ok false ∧
    operator_gt demoHeap3 demoF demoG = .ok false :=
  ⟨rfl, rfl, rfl, eq_excludes_lt_gt demoHeap3 demoF demoG [1, 2, 3] [1, 2, 3] rfl rfl rfl⟩

theorem sizeInv_iff {h : Heap T} {L : SingleLinkedList} :
    SizeInv h L ↔ ∃ s, elements h L = .ok s ∧ GetSize L = s.length ∧ s.length < SIZE_MOD := by
  unfold SizeInv
  constructor
  · rintro ⟨hm, hlt⟩
    cases he : elements h L with
    | error e => rw [he] at hm; cases hm
    | ok s =>
      rw [he] at hm
      have : s.length = GetSize L := by
        simp only [Except.map] at hm
        injection hm
      exact ⟨s, rfl, this.symm, by rw [this]; exact hlt⟩
  · rintro ⟨s, he, hsz, hlt⟩
    rw [he, hsz]
    exact ⟨rfl, hlt⟩

theorem clearLoop_erasure (fuel : Nat) : ∀ (h : Heap T) (L : SingleLinkedList),
    ClearLoop h L fuel = (ClearLoopCount h L fuel).map (fun r => (r.1, r.2.1)) := by
  induction fuel with
  | zero => intro h L; rfl
  | succ f ih =>
    intro h L
    cases hl : h.load L.head_ with
    | error e => simp [ClearLoop, ClearLoopCount, hl, bind, Except.bind, Except.map]
    | ok hd =>
      cases hn : hd.next_node with
      | none =>
        simp [ClearLoop, ClearLoopCount, hl, hn, bind, Except.bind, Except.map, pure,
          Except.pure]
      | some b =>
        cases hp : PopFront h L with
        | error e =>
          simp [ClearLoop, ClearLoopCount, hl, hn, hp, bind, Except.bind, Except.map]
        | ok r =>
          have := ih r.1 r.2
          cases hc : ClearLoopCount r.1 r.2 f with
          | error e =>
            rw [hc] at this
            simp [ClearLoop, ClearLoopCount, hl, hn, hp, hc, this, bind, Except.bind,
              Except.map]
          | ok c =>
            rw [hc] at this
            simp [ClearLoop, ClearLoopCount, hl, hn, hp, hc, this, bind, Except.bind,
              Except.map, pure, Except.pure]

theorem clearLoopCount_seg {ns : List (Nat × T)} :
    ∀ {h : Heap T} (L : SingleLinkedList) {d : T},
      Seg h (some L.head_) ((L.head_, d) :: ns) none → L.size_ = ns.length →
      ns.length < SIZE_MOD → ∀ fuel, ns.length < fuel →
      ∃ h', ClearLoopCount h L fuel = .ok (h', { L with size_ := 0 }, ns.length) := by
  induction ns with
  | nil =>
    intro h L d hs hsz _ fuel hf
    obtain ⟨f, rfl⟩ : ∃ f, fuel = f + 1 := ⟨fuel - 1, by simp at hf; omega⟩
    refine ⟨h, ?_⟩
    obtain ⟨_, nx, hl, hr⟩ := hs
    simp only [Seg] at hr
    subst hr
    have : L = { L with size_ := 0 } := by cases L; simp_all
    simp [ClearLoopCount, hl, bind, Except.bind, pure, Except.pure]
    exact this
  | cons x ns ih =>
    intro h L d hs hsz hcap fuel hf
    obtain ⟨f, rfl⟩ : ∃ f, fuel = f + 1 := ⟨fuel - 1, by simp at hf; omega⟩
    obtain ⟨b, u⟩ := x
    have hne : L.size_ ≠ 0 := by rw [hsz]; simp
    obtain ⟨h1, hp, hs1, hlen1⟩ := popFront_seg L hne hs
    have hsize : (L.size_ + SIZE_MOD - 1) % SIZE_MOD = ns.length := by
      rw [hsz]; exact size_pred (by simpa using hcap)
    obtain ⟨h2, hc⟩ :=
      ih (h := h1) { L with size_ := (L.size_ + SIZE_MOD - 1) % SIZE_MOD } (d := d) hs1 hsize
        (by simp at hcap; omega) f (by simp at hf; omega)
    refine ⟨h2, ?_⟩
    obtain ⟨_, nx, hl, hr⟩ := hs
    obtain ⟨hnx, _⟩ := hr
    subst hnx
    simp only [ClearLoopCount, hl, hp, bind, Except.bind]
    simp [hc, pure, Except.pure]

/-- Claim C19. On every list satisfying the size invariant `Clear()` returns normally:
its loop calls `PopFront` exactly `GetSize()` times, no call fails the assertion
`!IsEmpty()`, and the loop stops because the head link is null. -/
theorem Clear_never_fails (h : Heap T) (L : SingleLinkedList) (hinv : SizeInv h L) :
    ∃ h' L', Clear h L = .ok (h', L')
      ∧ ClearLoopCount h L (GetSize L + 1) = .ok (h', L', GetSize L)
      ∧ (∃ hd, h'.load L'.head_ = .ok hd ∧ hd.next_node = none)
      ∧ (∀ fuel, ClearLoop h L fuel
            = (ClearLoopCount h L fuel).map (fun r => (r.1, r.2.1))) := by
  obtain ⟨s, hel, hsz, hcap⟩ := sizeInv_iff.1 hinv
  obtain ⟨d, ns, hs, rfl⟩ := seg_of_elements hel
  have hsz' : L.size_ = ns.length := by simpa using hsz
  obtain ⟨h', hc⟩ :=
    clearLoopCount_seg L hs hsz' (by simpa using hcap) (L.size_ + 1) (by omega)
  have her := clearLoop_erasure (L.size_ + 1) h L
  obtain ⟨h'', hcl, hs', _, _⟩ :=
    clearLoop_seg L hs hsz' (by simpa using hcap) (L.size_ + 1) (by omega)
  have hsame : h'' = h' := by
    rw [hc, hcl] at her
    simp only [Except.map] at her
    injection her with her
    exact (Prod.mk.inj her).1
  subst hsame
  refine ⟨h'', { L with size_ := 0 }, hcl, ?_, ?_, fun fuel => clearLoop_erasure fuel h L⟩
  · show ClearLoopCount h L (L.size_ + 1) = .ok (h'', { L with size_ := 0 }, L.size_)
    rw [hc, hsz']
  · obtain ⟨_, nx, hl, hr⟩ := hs'
    simp only [Seg] at hr
    exact ⟨_, hl, hr⟩

theorem Clear_never_fails_witness :
    SizeInv demoHeap demoB ∧
    ∃ h' L', Clear demoHeap demoB = .ok (h', L')
      ∧ ClearLoopCount demoHeap demoB (GetSize demoB + 1) = .ok (h', L', 3) := by
  have hinv : SizeInv demoHeap demoB := ⟨rfl, by rw [SIZE_MOD_eq]; decide⟩
  obtain ⟨h', L', h1, h2, _⟩ := Clear_never_fails demoHeap demoB hinv
  exact ⟨hinv, h', L', h1, h2⟩

theorem lexCompare_trichotomy [LinearOrder T] (sa sb : List T) :
    (lexCompare sa sb = true ∧ sa ≠ sb ∧ lexCompare sb sa = false)
      ∨ (lexCompare sa sb = false ∧ sa = sb ∧ lexCompare sb sa = false)
      ∨ (lexCompare sa sb = false ∧ sa ≠ sb ∧ lexCompare sb sa = true) := by
  induction sa generalizing sb with
  | nil =>
    cases sb with
    | nil => simp [lexCompare]
    | cons y ys => simp [lexCompare]
  | cons x xs ih =>
    cases sb with
    | nil => simp [lexCompare]
    | cons y ys =>
      rcases lt_trichotomy x y with hxy | hxy | hxy
      · have hne : x ≠ y := ne_of_lt hxy
        have hnot : ¬ y < x := not_lt.2 hxy.le
        simp [lexCompare, hxy, hnot, hne]
      · subst hxy
        simpa [lexCompare] using ih ys
      · have hne : x ≠ y := (ne_of_lt hxy).symm
        have hnot : ¬ x < y := not_lt.2 hxy.le
        simp [lexCompare, hxy, hnot, hne]

/-- Claim C20. Over a linearly ordered element type exactly one of `a < b`, `a == b`,
`a > b` holds; hence `a <= b` is `a < b || a == b` and `a >= b` is `a > b || a == b`,
although `<=` and `>=` are computed from `<` alone. -/
theorem comparison_trichotomy [LinearOrder T] (h : Heap T) (a b : SingleLinkedList)
    (sa sb : List T) (ha : elements h a = .ok sa) (hb : elements h b = .ok sb) :
    ∃ lt eq gt, operator_lt h a b = .ok lt ∧ operator_eq h a b = .ok eq
      ∧ operator_gt h a b = .ok gt
      ∧ ((lt = true ∧ eq = false ∧ gt = false) ∨ (lt = false ∧ eq = true ∧ gt = false)
          ∨ (lt = false ∧ eq = false ∧ gt = true))
      ∧ operator_le h a b = .ok (lt || eq)
      ∧ operator_ge h a b = .ok (gt || eq) := by
  have hlt := operator_lt_of_elements ha hb
  have hgt : operator_gt h a b = .ok (lexCompare sb sa) := operator_lt_of_elements hb ha
  have heq := operator_eq_of_elements ha hb
  have hle : operator_le h a b = .ok (!lexCompare sb sa) := by
    simp [operator_le, hgt, bind, Except.bind, pure, Except.pure]
  have hge : operator_ge h a b = .ok (!lexCompare sa sb) := by
    simp [operator_ge, hlt, bind, Except.bind, pure, Except.pure]
  refine ⟨_, _, _, hlt, heq, hgt, ?_, ?_, ?_⟩
  · rcases lexCompare_trichotomy sa sb with ⟨h1, h2, h3⟩ | ⟨h1, h2, h3⟩ | ⟨h1, h2, h3⟩
    · exact Or.inl ⟨h1, by simpa using h2, h3⟩
    · exact Or.inr (Or.inl ⟨h1, by simpa using h2, h3⟩)
    · exact Or.inr (Or.inr ⟨h1, by simpa using h2, h3⟩)
  · rw [hle]
    rcases lexCompare_trichotomy sa sb with ⟨h1, h2, h3⟩ | ⟨h1, h2, h3⟩ | ⟨h1, h2, h3⟩ <;>
      (rw [h1, h3]; simp [h2])
  · rw [hge]
    rcases lexCompare_trichotomy sa sb with ⟨h1, h2, h3⟩ | ⟨h1, h2, h3⟩ | ⟨h1, h2, h3⟩ <;>
      (rw [h1, h3]; simp [h2])

theorem comparison_trichotomy_witness :
    elements demoHeap demoA = .ok [1, 2] ∧ elements demoHeap demoB = .ok [1, 2, 3] ∧
    ∃ lt eq gt, operator_lt demoHeap demoA demoB = .ok lt
      ∧ operator_eq demoHeap demoA demoB = .ok eq
      ∧ operator_gt demoHeap demoA demoB = .ok gt
      ∧ ((lt = true ∧ eq = false ∧ gt = false) ∨ (lt = false ∧ eq = true ∧ gt = false)
          ∨ (lt = false ∧ eq = false ∧ gt = true))
      ∧ operator_le demoHeap demoA demoB = .ok (lt || eq)
      ∧ operator_ge demoHeap demoA demoB = .ok (gt || eq) :=
  ⟨rfl, rfl, comparison_trichotomy demoHeap demoA demoB [1, 2] [1, 2, 3] rfl rfl⟩

theorem collectNodes_of_seg {h : Heap T} {ns : List (Nat × T)} {p : Option Nat}
    (hs : Seg h p ns none) : ∀ fuel, ns.length < fuel →
      collectNodes h fuel ⟨p⟩ = .ok (ns.map Prod.fst) := by
  induction ns generalizing p with
  | nil =>
    intro fuel hf
    obtain ⟨f, rfl⟩ : ∃ f, fuel = f + 1 := ⟨fuel - 1, by simp at hf; omega⟩
    simp only [Seg] at hs
    subst hs
    simp [collectNodes, pure, Except.pure]
  | cons x ns ih =>
    obtain ⟨a, v⟩ := x
    obtain ⟨hp, nx, hl, hr⟩ := hs
    subst hp
    intro fuel hf
    obtain ⟨f, rfl⟩ : ∃ f, fuel = f + 1 := ⟨fuel - 1, by simp at hf; omega⟩
    have hrec := ih hr f (by simp at hf; omega)
    simp only [collectNodes, incr_some hl]
    simp [hrec, bind, Except.bind, pure, Except.pure]

theorem storage_of_seg {h : Heap T} {L : SingleLinkedList} {full : List (Nat × T)}
    (hs : Seg h (some L.head_) full none) : storage h L = .ok (full.map Prod.fst) := by
  obtain ⟨d, ns, rfl⟩ := seg_some_cons hs
  obtain ⟨nx, hb, hr, hlen⟩ := begin_of_seg hs
  have := collectNodes_of_seg hr (h.length + 1) (by omega)
  simp [storage, hb, this, bind, Except.bind, pure, Except.pure]

/-- Two separate lists, as chains: every address of one differs from every address of the
other. -/
theorem separate_chains {h : Heap T} {a b : SingleLinkedList} {fa fb : List (Nat × T)}
    (hsa : Seg h (some a.head_) fa none) (hsb : Seg h (some b.head_) fb none)
    (hsep : Separate h a b) : ∀ x ∈ fa, ∀ y ∈ fb, x.1 ≠ y.1 := by
  obtain ⟨na, nb, h1, h2, hd⟩ := hsep
  rw [storage_of_seg hsa] at h1
  rw [storage_of_seg hsb] at h2
  cases h1
  cases h2
  intro x hx y hy hxy
  exact hd x.1 (List.mem_map.2 ⟨x, hx, rfl⟩) (List.mem_map.2 ⟨y, hy, hxy.symm⟩)

theorem separate_of_chains {h : Heap T} {a b : SingleLinkedList} {fa fb : List (Nat × T)}
    (hsa : Seg h (some a.head_) fa none) (hsb : Seg h (some b.head_) fb none)
    (hd : ∀ x ∈ fa, ∀ y ∈ fb, x.1 ≠ y.1) : Separate h a b := by
  refine ⟨_, _, storage_of_seg hsa, storage_of_seg hsb, ?_⟩
  intro x hx hx'
  obtain ⟨u, hu, rfl⟩ := List.mem_map.1 hx
  obtain ⟨w, hw, hwu⟩ := List.mem_map.1 hx'
  exact hd u hu w hw hwu.symm

theorem swap_seg {h : Heap T} (a b : SingleLinkedList) {da db : T} {na nb : List (Nat × T)}
    (hsa : Seg h (some a.head_) ((a.head_, da) :: na) none)
    (hsb : Seg h (some b.head_) ((b.head_, db) :: nb) none)
    (hdis : ∀ x ∈ (a.head_, da) :: na, ∀ y ∈ (b.head_, db) :: nb, x.1 ≠ y.1) :
    ∃ h', swap h a b = .ok (h', { a with size_ := b.size_ }, { b with size_ := a.size_ })
      ∧ Seg h' (some a.head_) ((a.head_, da) :: nb) none
      ∧ Seg h' (some b.head_) ((b.head_, db) :: na) none
      ∧ h'.length = h.length
      ∧ (∀ c, c ≠ a.head_ → c ≠ b.head_ → h'.load c = h.load c) := by
  have hab : a.head_ ≠ b.head_ :=
    hdis (a.head_, da) (List.mem_cons_self _ _) (b.head_, db) (List.mem_cons_self _ _)
  have hna : ∀ x ∈ na, x.1 ≠ a.head_ := seg_not_mem hsa
  have hnb : ∀ y ∈ nb, y.1 ≠ b.head_ := seg_not_mem hsb
  have hna' : ∀ x ∈ na, x.1 ≠ b.head_ := fun x hx =>
    hdis x (List.mem_cons_of_mem _ hx) (b.head_, db) (List.mem_cons_self _ _)
  have hnb' : ∀ y ∈ nb, y.1 ≠ a.head_ := fun y hy hya =>
    hdis (a.head_, da) (List.mem_cons_self _ _) y (List.mem_cons_of_mem _ hy) hya.symm
  obtain ⟨_, pa, hla, hra⟩ := hsa
  obtain ⟨_, pb, hlb, hrb⟩ := hsb
  have hA : a.head_ < h.length := load_lt hla
  have hB : b.head_ < h.length := load_lt hlb
  have hlb1 : (h.store a.head_ ⟨da, pb⟩).load b.head_ = .ok ⟨db, pb⟩ := by
    rw [load_store_other _ hab]; exact hlb
  have hfr : ∀ c, c ≠ a.head_ → c ≠ b.head_ →
      ((h.store a.head_ ⟨da, pb⟩).store b.head_ ⟨db, pa⟩).load c = h.load c := by
    intro c hca hcb
    rw [load_store_other _ (Ne.symm hcb), load_store_other _ (Ne.symm hca)]
  refine ⟨(h.store a.head_ ⟨da, pb⟩).store b.head_ ⟨db, pa⟩, ?_, ⟨rfl, pb, ?_, ?_⟩,
    ⟨rfl, pa, ?_, ?_⟩, ?_, hfr⟩
  · simp [swap, hla, hlb, hlb1, bind, Except.bind, pure, Except.pure]
  · rw [load_store_other _ (Ne.symm hab)]
    exact load_store_same _ hA
  · exact seg_frame (fun y hy => hfr y.1 (hnb' y hy) (hnb y hy)) hrb
  · exact load_store_same _ (by rw [length_store]; exact hB)
  · exact seg_frame (fun x hx => hfr x.1 (hna x hx) (hna' x hx)) hra
  · rw [length_store, length_store]

theorem store_same_eq {h : Heap T} {a : Nat} {n : Node T} (hl : h.load a = .ok n) :
    h.store a n = h := by
  rw [load_eq_ok] at hl
  apply List.ext_getElem?
  intro i
  by_cases hi : a = i
  · subst hi
    have := load_lt (load_eq_ok.2 hl)
    simp [Heap.store, List.getElem?_set, this, hl]
  · simp [Heap.store, List.getElem?_set_ne hi]

theorem swap_self {h : Heap T} {a : SingleLinkedList} {n : Node T}
    (hl : h.load a.head_ = .ok n) : swap h a a = .ok (h, a, a) := by
  have h1 : h.store a.head_ { value := n.value, next_node := n.next_node } = h :=
    store_same_eq hl
  simp [swap, hl, h1, bind, Except.bind, pure, Except.pure]

/-- Claim C14. `a.swap(b)`, and the free `swap(a, b)` delegating to it, exchange the
contents of two lists (two separate lists, or one list with itself): afterwards `a` has
the former element sequence and size of `b`, and `b` those of `a`.  The list objects after
the call are the ones it was made on (same sentinels), so it is the list `a`, walked from
its own sentinel, that yields the former elements of `b`, and conversely; no memory cell
other than the two sentinels is written, so no element value changes. -/
theorem swap_spec (h : Heap T) (a b : SingleLinkedList) (sa sb : List T)
    (ha : elements h a = .ok sa) (hb : elements h b = .ok sb)
    (hsep : a = b ∨ Separate h a b) :
    ∃ h' a' b', swap h a b = .ok (h', a', b') ∧ swap_free h a b = .ok (h', a', b')
      ∧ elements h' a' = .ok sb ∧ GetSize a' = GetSize b
      ∧ elements h' b' = .ok sa ∧ GetSize b' = GetSize a
      ∧ a'.head_ = a.head_ ∧ b'.head_ = b.head_
      ∧ elements h' a = .ok sb ∧ elements h' b = .ok sa
      ∧ (∀ c, c ≠ a.head_ → c ≠ b.head_ → h'.load c = h.load c) := by
  rcases hsep with rfl | hsep
  · obtain ⟨d, ns, hs, _⟩ := seg_of_elements ha
    obtain ⟨_, nx, hl, _⟩ := hs
    have hsw := swap_self hl
    rw [ha] at hb
    cases hb
    exact ⟨h, a, a, hsw, hsw, ha, rfl, ha, rfl, rfl, rfl, ha, ha, fun _ _ _ => rfl⟩
  · obtain ⟨da, na, hsa, rfl⟩ := seg_of_elements ha
    obtain ⟨db, nb, hsb, rfl⟩ := seg_of_elements hb
    obtain ⟨h', hsw, hsa', hsb', _, hfr⟩ :=
      swap_seg a b hsa hsb (separate_chains hsa hsb hsep)
    refine ⟨h', _, _, hsw, hsw, ?_, rfl, ?_, rfl, rfl, rfl, ?_, ?_, hfr⟩
    · have := elements_of_seg (L := { a with size_ := b.size_ }) hsa'
      simpa using this
    · have := elements_of_seg (L := { b with size_ := a.size_ }) hsb'
      simpa using this
    · have := elements_of_seg hsa'
      simpa using this
    · have := elements_of_seg hsb'
      simpa using this

theorem swap_spec_witness :
    elements demoHeap demoA = .ok [1, 2] ∧ elements demoHeap demoB = .ok [1, 2, 3] ∧
    (demoA = demoB ∨ Separate demoHeap demoA demoB) ∧
    ∃ h' a' b', swap demoHeap demoA demoB = .ok (h', a', b')
      ∧ swap_free demoHeap demoA demoB = .ok (h', a', b')
      ∧ elements h' a' = .ok [1, 2, 3] ∧ GetSize a' = GetSize demoB
      ∧ elements h' b' = .ok [1, 2] ∧ GetSize b' = GetSize demoA
      ∧ a'.head_ = demoA.head_ ∧ b'.head_ = demoB.head_
      ∧ elements h' demoA = .ok [1, 2, 3] ∧ elements h' demoB = .ok [1, 2]
      ∧ (∀ c, c ≠ demoA.head_ → c ≠ demoB.head_ → h'.load c = demoHeap.load c) :=
  ⟨rfl, rfl, Or.inr ⟨[0, 1, 2], [3, 4, 5, 6], rfl, rfl, by decide⟩,
    swap_spec demoHeap demoA demoB [1, 2] [1, 2, 3] rfl rfl
      (Or.inr ⟨[0, 1, 2], [3, 4, 5, 6], rfl, rfl, by decide⟩)⟩

theorem popFront_seg_frame {h : Heap T} (L : SingleLinkedList) {d u : T} {b : Nat}
    {ns : List (Nat × T)} (hsz : L.size_ ≠ 0)
    (hs : Seg h (some L.head_) ((L.head_, d) :: (b, u) :: ns) none) :
    ∃ h', PopFront h L = .ok (h', { L with size_ := (L.size_ + SIZE_MOD - 1) % SIZE_MOD })
      ∧ Seg h' (some L.head_) ((L.head_, d) :: ns) none
      ∧ h'.length = h.length
      ∧ (∀ c, c ≠ L.head_ → c ≠ b → h'.load c = h.load c) := by
  have hs0 : Seg h (some L.head_) ([] ++ (L.head_, d) :: (b, u) :: ns) none := hs
  obtain ⟨_, hn2⟩ := seg_split_ne hs0
  have hs' : Seg h (some L.head_) ([(L.head_, d)] ++ (b, u) :: ns) none := hs
  obtain ⟨hb1, hb2⟩ := seg_split_ne hs'
  have hab : L.head_ ≠ b := hb1 (L.head_, d) (by simp)
  obtain ⟨_, nxa, hla, hra⟩ := hs
  obtain ⟨hnb, nxb, hlb, hrb⟩ := hra
  subst hnb
  have ha : L.head_ < h.length := load_lt hla
  have hlb' : (h.store L.head_ ⟨d, nxb⟩).load b = .ok ⟨u, nxb⟩ := by
    rw [load_store_other _ hab]; exact hlb
  have hla' : Heap.load ((h.store L.head_ ⟨d, nxb⟩).set b none) L.head_ = .ok ⟨d, nxb⟩ := by
    rw [load_set_none_other (Ne.symm hab)]; exact load_store_same _ ha
  have hfr : Seg ((h.store L.head_ ⟨d, nxb⟩).set b none) nxb ns none := by
    refine seg_frame ?_ hrb
    intro x hx
    exact load_erase_other _ (hn2 x (List.mem_cons_of_mem _ hx)) (hb2 x hx)
  refine ⟨(h.store L.head_ ⟨d, nxb⟩).set b none, ?_, ⟨rfl, nxb, hla', hfr⟩, ?_,
    fun c hca hcb => load_erase_other _ hca hcb⟩
  · simp [PopFront, IsEmpty, hsz, hla, hlb, delete_eq_ok hlb', bind, Except.bind, pure,
      Except.pure]
  · simp [Heap.store]

theorem clearLoop_seg_frame {ns : List (Nat × T)} :
    ∀ {h : Heap T} (L : SingleLinkedList) {d : T},
      Seg h (some L.head_) ((L.head_, d) :: ns) none → L.size_ = ns.length →
      ns.length < SIZE_MOD → ∀ fuel, ns.length < fuel →
      ∃ h', ClearLoop h L fuel = .ok (h', { L with size_ := 0 })
        ∧ Seg h' (some L.head_) [(L.head_, d)] none ∧ h'.length = h.length
        ∧ (∀ c, c ≠ L.head_ → (∀ x ∈ ns, x.1 ≠ c) → h'.load c = h.load c) := by
  induction ns with
  | nil =>
    intro h L d hs hsz _ fuel hf
    obtain ⟨f, rfl⟩ : ∃ f, fuel = f + 1 := ⟨fuel - 1, by simp at hf; omega⟩
    refine ⟨h, ?_, hs, rfl, fun _ _ _ => rfl⟩
    obtain ⟨_, nx, hl, hr⟩ := hs
    simp only [Seg] at hr
    subst hr
    have : L = { L with size_ := 0 } := by cases L; simp_all
    simp [ClearLoop, hl, bind, Except.bind, pure, Except.pure]
    exact this
  | cons x ns ih =>
    intro h L d hs hsz hcap fuel hf
    obtain ⟨f, rfl⟩ : ∃ f, fuel = f + 1 := ⟨fuel - 1, by simp at hf; omega⟩
    obtain ⟨b, u⟩ := x
    have hne : L.size_ ≠ 0 := by rw [hsz]; simp
    obtain ⟨h1, hp, hs1, hlen1, hfr1⟩ := popFront_seg_frame L hne hs
    have hsize : (L.size_ + SIZE_MOD - 1) % SIZE_MOD = ns.length := by
      rw [hsz]; exact size_pred (by simpa using hcap)
    obtain ⟨h2, hc, hs2, hlen2, hfr2⟩ :=
      ih (h := h1) { L with size_ := (L.size_ + SIZE_MOD - 1) % SIZE_MOD } (d := d) hs1 hsize
        (by simp at hcap; omega) f (by simp at hf; omega)
    dsimp only at hc hs2 hfr2
    refine ⟨h2, ?_, hs2, by rw [hlen2, hlen1], ?_⟩
    · obtain ⟨_, nx, hl, hr⟩ := hs
      obtain ⟨hnx, _⟩ := hr
      subst hnx
      simp only [ClearLoop, hl, hp, bind, Except.bind]
      simpa using hc
    · intro c hc1 hc2
      rw [hfr2 c hc1 (fun x hx => hc2 x (List.mem_cons_of_mem _ hx)),
        hfr1 c hc1 (fun hh => hc2 (b, u) (List.mem_cons_self _ _) hh.symm)]

/-- The destructor on a list satisfying the size invariant: every node of the list and the
sentinel are released, nothing else is touched. -/
theorem dtor_seg {h : Heap T} (L : SingleLinkedList) {d : T} {ns : List (Nat × T)}
    (hs : Seg h (some L.head_) ((L.head_, d) :: ns) none) (hsz : L.size_ = ns.length)
    (hcap : ns.length < SIZE_MOD) :
    ∃ h', SingleLinkedList.dtor h L = .ok h' ∧ h'.length = h.length
      ∧ (∀ c, c ≠ L.head_ → (∀ x ∈ ns, x.1 ≠ c) → h'.load c = h.load c) := by
  obtain ⟨h1, hc, hs1, hlen1, hfr1⟩ :=
    clearLoop_seg_frame L hs hsz hcap (L.size_ + 1) (by omega)
  obtain ⟨_, nx, hl, _⟩ := hs1
  refine ⟨h1.set L.head_ none, ?_, by simp [hlen1], ?_⟩
  · simp only [SingleLinkedList.dtor, Clear, hc, bind, Except.bind]
    exact delete_eq_ok hl
  · intro c hc1 hc2
    rw [load_set_none_other (Ne.symm hc1), hfr1 c hc1 hc2]


theorem transferCopyLoop_eq {rem : List (Nat × T)} :
    ∀ {h : Heap T} (tmp : SingleLinkedList) {pre : List (Nat × T)} {a : Nat} {w : T}
      {p q : Option Nat} (fuel : Nat),
      Seg h p (pre ++ [(a, w)]) none → Seg h q rem none →
      (∀ x ∈ rem, ∀ y ∈ pre ++ [(a, w)], x.1 ≠ y.1) → rem.length < fuel →
      TransferCopyLoop fuel h tmp ⟨some a⟩ ⟨q⟩
        = TransferLoop h tmp ⟨some a⟩ (rem.map Prod.snd) := by
  induction rem with
  | nil =>
    intro h tmp pre a w p q fuel _ hq _ hf
    obtain ⟨f, rfl⟩ : ∃ f, fuel = f + 1 := ⟨fuel - 1, by simp at hf; omega⟩
    simp only [Seg] at hq
    subst hq
    simp [TransferCopyLoop, TransferLoop, end_]
  | cons x rest ih =>
    intro h tmp pre a w p q fuel hs hq hdis hf
    obtain ⟨f, rfl⟩ : ∃ f, fuel = f + 1 := ⟨fuel - 1, by simp at hf; omega⟩
    obtain ⟨b, u⟩ := x
    have hlt := seg_lt hq
    have hnotb := seg_not_mem hq
    obtain ⟨hqb, nx, hlb, hrest⟩ := hq
    subst hqb
    have hs0 : Seg h p (pre ++ (a, w) :: []) none := hs
    obtain ⟨h1, hins, hs1, hlen1, hfr1⟩ := insertAfter_seg tmp u hs0
    have hla : ∃ nx', h1.load a = .ok ⟨w, nx'⟩ ∧ nx' = some h.length := by
      obtain ⟨m, _, hm⟩ := seg_append.1 hs1
      obtain ⟨_, nx', hl, hr⟩ := hm
      obtain ⟨hnx, _⟩ := hr
      exact ⟨nx', hl, hnx⟩
    obtain ⟨nx', hla, rfl⟩ := hla
    have hba : b ≠ a := hdis (b, u) (List.mem_cons_self _ _) (a, w) (by simp)
    have hlb1 : h1.load b = .ok ⟨u, nx⟩ := by
      rw [hfr1 b hba (hlt (b, u) (List.mem_cons_self _ _))]; exact hlb
    have hs1' : Seg h1 p ((pre ++ [(a, w)]) ++ [(h.length, u)]) none := by simpa using hs1
    have hrest1 : Seg h1 nx rest none := by
      refine seg_frame ?_ hrest
      intro y hy
      exact hfr1 y.1 (hdis y (List.mem_cons_of_mem _ hy) (a, w) (by simp))
        (hlt y (List.mem_cons_of_mem _ hy))
    have hdis1 : ∀ x ∈ rest, ∀ y ∈ (pre ++ [(a, w)]) ++ [(h.length, u)], x.1 ≠ y.1 := by
      intro x hx y hy
      rcases List.mem_append.1 hy with hy | hy
      · exact hdis x (List.mem_cons_of_mem _ hx) y hy
      · simp at hy
        subst hy
        have := hlt x (List.mem_cons_of_mem _ hx)
        simp only
        omega
    have hrec := ih (h := h1) { tmp with size_ := (tmp.size_ + 1) % SIZE_MOD } f hs1' hrest1
      hdis1 (by simp at hf; omega)
    simp only [TransferCopyLoop, TransferLoop, List.map_cons, end_, deref_some hlb, hins,
      incr_some hla, incr_some hlb1, bind, Except.bind]
    simpa using hrec

/-- What `Transfer` does after its loop, on a freshly constructed list `L`: the built
chain moves behind the sentinel of `L`, and the emptied temporary is destroyed. -/
theorem transfer_tail {h : Heap T} (L tmp : SingleLinkedList) {dl dt : T}
    {ns : List (Nat × T)}
    (hL : Seg h (some L.head_) [(L.head_, dl)] none) (hLsz : L.size_ = 0)
    (ht : Seg h (some tmp.head_) ((tmp.head_, dt) :: ns) none)
    (hne : L.head_ ≠ tmp.head_) (hfresh : ∀ x ∈ ns, x.1 ≠ L.head_) :
    ∃ h', (do
        let s ← swap h L tmp
        let h3 ← SingleLinkedList.dtor s.1 s.2.2
        pure (h3, s.2.1)) = .ok (h', ({ L with size_ := tmp.size_ } : SingleLinkedList))
      ∧ Seg h' (some L.head_) ((L.head_, dl) :: ns) none
      ∧ h'.length = h.length
      ∧ (∀ c, c ≠ L.head_ → c ≠ tmp.head_ → h'.load c = h.load c) := by
  have hdis : ∀ x ∈ [(L.head_, dl)], ∀ y ∈ (tmp.head_, dt) :: ns, x.1 ≠ y.1 := by
    intro x hx y hy
    simp at hx
    subst hx
    rcases List.mem_cons.1 hy with rfl | hy
    · exact hne
    · exact fun hh => hfresh y hy hh.symm
  obtain ⟨h1, hsw, hs1, hs2, hlen1, hfr1⟩ := swap_seg L tmp hL ht hdis
  have hsz2 : ({ tmp with size_ := L.size_ } : SingleLinkedList).size_
      = ([] : List (Nat × T)).length := hLsz
  obtain ⟨h2, hd, hlen2, hfr2⟩ :=
    dtor_seg { tmp with size_ := L.size_ } hs2 hsz2 (by rw [SIZE_MOD_eq]; simp)
  dsimp only at hfr2
  have hnt := seg_not_mem ht
  refine ⟨h2, ?_, ?_, by rw [hlen2, hlen1], ?_⟩
  · simp only [hsw, hd, bind, Except.bind, pure, Except.pure]
  · refine seg_frame ?_ hs1
    intro x hx
    refine hfr2 x.1 ?_ (by simp)
    rcases List.mem_cons.1 hx with rfl | hx
    · exact hne
    · exact hnt x hx
  · intro c hc1 hc2
    rw [hfr2 c hc2 (by simp), hfr1 c hc1 hc2]


theorem ofValues_seg_frame [Inhabited T] (h : Heap T) (s : List T)
    (hlen : s.length < SIZE_MOD) :
    ∃ h' ns, SingleLinkedList.ofValues h s = .ok (h', ⟨h.length, s.length⟩)
      ∧ Seg h' (some h.length) ((h.length, default) :: ns) none ∧ ns.map Prod.snd = s
      ∧ (∀ x ∈ ns, h.length < x.1)
      ∧ (∀ c, c < h.length → h'.load c = h.load c)
      ∧ h.length ≤ h'.length := by
  have hA : (h.alloc (⟨default, none⟩ : Node T)).1.length = h.length + 1 := length_alloc _ _
  have hlenB : ((h.alloc (⟨default, none⟩ : Node T)).1.alloc (⟨default, none⟩ : Node T)).1.length
      = h.length + 2 := by simp [Heap.alloc]
  have hs0 : Seg ((h.alloc (⟨default, none⟩ : Node T)).1.alloc (⟨default, none⟩ : Node T)).1
      (some (h.length + 1)) ([] ++ [(h.length + 1, (default : T))]) none := by
    refine ⟨rfl, none, ?_, rfl⟩
    have := load_alloc_new (h.alloc (⟨default, none⟩ : Node T)).1 (⟨default, none⟩ : Node T)
    simpa [Heap.alloc] using this
  obtain ⟨h2, ns, it, sz, hloop, hsz, hs2, hmap, hfresh, hfr2, hlen2⟩ :=
    transferLoop_seg s (⟨h.length + 1, 0⟩ : SingleLinkedList) hs0
  have hsz' : sz = s.length := by simpa using hsz (by simpa using hlen)
  subst hsz'
  rw [hlenB] at hfresh hfr2 hlen2
  have hL2 : h2.load h.length = .ok ⟨default, none⟩ := by
    rw [hfr2 h.length (by omega) (by simp)]
    rw [load_alloc_old _ (by rw [hA]; omega)]
    exact load_alloc_new h _
  have hLseg : Seg h2 (some (⟨h.length, 0⟩ : SingleLinkedList).head_)
      [((⟨h.length, 0⟩ : SingleLinkedList).head_, (default : T))] none :=
    ⟨rfl, none, hL2, rfl⟩
  have htseg : Seg h2 (some (⟨h.length + 1, s.length⟩ : SingleLinkedList).head_)
      (((⟨h.length + 1, s.length⟩ : SingleLinkedList).head_, (default : T)) :: ns) none := hs2
  obtain ⟨h', htail, hs', hlen', hfr'⟩ :=
    transfer_tail (⟨h.length, 0⟩ : SingleLinkedList) (⟨h.length + 1, s.length⟩ : SingleLinkedList)
      hLseg rfl htseg (by simp) (by
        intro x hx
        have := hfresh x hx
        simp only
        omega)
  dsimp only at htail hs' hfr'
  refine ⟨h', ns, ?_, hs', hmap, ?_, ?_, by omega⟩
  · simp only [Heap.alloc] at hloop
    simp only [SingleLinkedList.ofValues, Transfer, SingleLinkedList.ctor, before_begin,
      Heap.alloc, List.length_append, List.length_singleton, hloop, bind, Except.bind]
    exact htail
  · intro x hx
    have := hfresh x hx
    omega
  · intro c hc
    rw [hfr' c (by omega) (by omega), hfr2 c (by omega) (by simp; omega),
      load_alloc_old _ (by rw [hA]; omega), load_alloc_old _ hc]

theorem copy_eq_ofValues [Inhabited T] {h : Heap T} (other : SingleLinkedList) {d : T}
    {no : List (Nat × T)} (ho : Seg h (some other.head_) ((other.head_, d) :: no) none) :
    SingleLinkedList.copy h other = SingleLinkedList.ofValues h (no.map Prod.snd) := by
  have hlt := seg_lt ho
  have hlen := seg_length_le ho
  have hA : (h.alloc (⟨default, none⟩ : Node T)).1.length = h.length + 1 := length_alloc _ _
  have hlenB : ((h.alloc (⟨default, none⟩ : Node T)).1.alloc (⟨default, none⟩ : Node T)).1.length
      = h.length + 2 := by simp [Heap.alloc]
  have hold : ∀ c, c < h.length →
      ((h.alloc (⟨default, none⟩ : Node T)).1.alloc (⟨default, none⟩ : Node T)).1.load c
        = h.load c := by
    intro c hc
    rw [load_alloc_old _ (by rw [hA]; omega), load_alloc_old _ hc]
  have hoB : Seg ((h.alloc (⟨default, none⟩ : Node T)).1.alloc (⟨default, none⟩ : Node T)).1
      (some other.head_) ((other.head_, d) :: no) none :=
    seg_frame (fun x hx => hold x.1 (hlt x hx)) ho
  obtain ⟨po, hbeg, hno, _⟩ := begin_of_seg hoB
  have hs0 : Seg ((h.alloc (⟨default, none⟩ : Node T)).1.alloc (⟨default, none⟩ : Node T)).1
      (some (h.length + 1)) ([] ++ [(h.length + 1, (default : T))]) none := by
    refine ⟨rfl, none, ?_, rfl⟩
    have := load_alloc_new (h.alloc (⟨default, none⟩ : Node T)).1 (⟨default, none⟩ : Node T)
    simpa [Heap.alloc] using this
  have hdis : ∀ x ∈ no, ∀ y ∈ [] ++ [(h.length + 1, (default : T))], x.1 ≠ y.1 := by
    intro x hx y hy
    simp at hy
    subst hy
    have := hlt x (List.mem_cons_of_mem _ hx)
    simp only
    omega
  have heq := transferCopyLoop_eq (⟨h.length + 1, 0⟩ : SingleLinkedList)
    (((h.alloc (⟨default, none⟩ : Node T)).1.alloc (⟨default, none⟩ : Node T)).1.length + 1)
    hs0 hno hdis (by rw [hlenB]; simp at hlen; omega)
  simp only [Heap.alloc, List.length_append, List.length_singleton] at heq hbeg
  simp only [SingleLinkedList.copy, SingleLinkedList.ofValues, TransferCopy, Transfer,
    SingleLinkedList.ctor, before_begin, Heap.alloc, List.length_append,
    List.length_singleton, hbeg, heq, bind, Except.bind]

theorem copy_seg [Inhabited T] {h : Heap T} (other : SingleLinkedList) {d : T}
    {no : List (Nat × T)} (ho : Seg h (some other.head_) ((other.head_, d) :: no) none)
    (hlen : no.length < SIZE_MOD) :
    ∃ h' ns, SingleLinkedList.copy h other = .ok (h', ⟨h.length, no.length⟩)
      ∧ Seg h' (some h.length) ((h.length, default) :: ns) none
      ∧ ns.map Prod.snd = no.map Prod.snd
      ∧ (∀ x ∈ ns, h.length < x.1)
      ∧ (∀ c, c < h.length → h'.load c = h.load c)
      ∧ h.length ≤ h'.length := by
  rw [copy_eq_ofValues other ho]
  have := ofValues_seg_frame h (no.map Prod.snd) (by simpa using hlen)
  simpa using this

theorem eraseAfter_seg_frame {h : Heap T} (L : SingleLinkedList) {l1 l2 : List (Nat × T)}
    {a b : Nat} {w u : T} {p : Option Nat}
    (hs : Seg h p (l1 ++ (a, w) :: (b, u) :: l2) none) :
    ∃ h' nx, EraseAfter h L ⟨some a⟩
        = .ok (h', { L with size_ := (L.size_ + SIZE_MOD - 1) % SIZE_MOD }, ⟨nx⟩)
      ∧ Seg h' p (l1 ++ (a, w) :: l2) none
      ∧ h'.length = h.length
      ∧ (∀ c, c ≠ a → c ≠ b → h'.load c = h.load c) := by
  obtain ⟨hn1, hn2⟩ := seg_split_ne hs
  have hs' : Seg h p ((l1 ++ [(a, w)]) ++ (b, u) :: l2) none := by simpa using hs
  obtain ⟨hb1, hb2⟩ := seg_split_ne hs'
  have hab : a ≠ b := hb1 (a, w) (by simp)
  obtain ⟨m, hs1, hs2⟩ := seg_append.1 hs
  obtain ⟨hm, nxa, hla, hra⟩ := hs2
  obtain ⟨hnb, nxb, hlb, hrb⟩ := hra
  subst hnb
  have ha : a < h.length := load_lt hla
  have hlb' : (h.store a ⟨w, nxb⟩).load b = .ok ⟨u, nxb⟩ := by
    rw [load_store_other _ hab]; exact hlb
  have hla' : Heap.load ((h.store a ⟨w, nxb⟩).set b none) a = .ok ⟨w, nxb⟩ := by
    rw [load_set_none_other (Ne.symm hab)]; exact load_store_same _ ha
  have hfr : Seg ((h.store a ⟨w, nxb⟩).set b none) nxb l2 none := by
    refine seg_frame ?_ hrb
    intro x hx
    exact load_erase_other _ (hn2 x (List.mem_cons_of_mem _ hx)) (hb2 x hx)
  refine ⟨(h.store a ⟨w, nxb⟩).set b none, nxb, ?_, ?_, ?_,
    fun c hca hcb => load_erase_other _ hca hcb⟩
  · simp [EraseAfter, hla, hlb, delete_eq_ok hlb', hla', bind, Except.bind, pure, Except.pure]
  · refine seg_append.2 ⟨m, seg_frame ?_ hs1, hm, nxb, hla', hfr⟩
    intro x hx
    exact load_erase_other _ (hn1 x hx) (hb1 x (List.mem_append_left _ hx))
  · simp [Heap.store]

theorem advance_ok_cases {h : Heap T} {fl : List (Nat × T)} :
    ∀ {p : Option Nat} {i : Nat} {pos : BasicIterator}, Seg h p fl none →
      advance h ⟨p⟩ i = .ok pos → i < fl.length ∨ (i = fl.length ∧ pos = ⟨none⟩) := by
  induction fl with
  | nil =>
    intro p i pos hs ha
    simp only [Seg] at hs
    subst hs
    cases i with
    | zero =>
      simp only [advance, pure, Except.pure] at ha
      cases ha
      exact Or.inr ⟨rfl, rfl⟩
    | succ k => simp [advance, BasicIterator.incr, bind, Except.bind] at ha
  | cons x rest ih =>
    intro p i pos hs ha
    obtain ⟨a, v⟩ := x
    obtain ⟨hp, nx, hl, hr⟩ := hs
    subst hp
    cases i with
    | zero => exact Or.inl (by simp)
    | succ k =>
      simp only [advance, incr_some hl, bind, Except.bind] at ha
      rcases ih hr ha with hlt | ⟨he, hpos⟩
      · exact Or.inl (by simp; omega)
      · exact Or.inr ⟨by simp [he], hpos⟩

theorem apart_of_frame {h h' : Heap T} {L L' : SingleLinkedList} {fl fl' fo : List (Nat × T)}
    {q : Nat} (hap : Apart h L fl q fo) (hhead : L'.head_ = L.head_)
    (hs' : Seg h' (some L.head_) fl' none)
    (hnew : ∀ x ∈ fl', x ∈ fl ∨ h.length ≤ x.1)
    (hfr : ∀ c, c < h.length → (∀ x ∈ fl, x.1 ≠ c) → h'.load c = h.load c) :
    Apart h' L' fl' q fo := by
  obtain ⟨hl, ho, hdis⟩ := hap
  have hlt := seg_lt ho
  refine ⟨by rw [hhead]; exact hs', seg_frame ?_ ho, ?_⟩
  · intro y hy
    exact hfr y.1 (hlt y hy) (fun x hx => hdis x hx y hy)
  · intro x hx y hy
    rcases hnew x hx with hx | hx
    · exact hdis x hx y hy
    · have := hlt y hy
      omega

theorem pushFront_apart {h h' : Heap T} {L L' : SingleLinkedList} {fl fo : List (Nat × T)}
    {q : Nat} {v : T} (hap : Apart h L fl q fo) (hm : PushFront h L v = .ok (h', L')) :
    ∃ fl', Apart h' L' fl' q fo := by
  obtain ⟨d, ns, rfl⟩ := seg_some_cons hap.1
  have hs0 : Seg h (some L.head_) ([] ++ (L.head_, d) :: ns) none := hap.1
  obtain ⟨h1, hins, hs1, _, hfr1⟩ := insertAfter_seg L v hs0
  rw [pushFront_eq_insertAfter] at hm
  simp only [before_begin, hins, Except.map] at hm
  injection hm with hm
  obtain ⟨rfl, rfl⟩ := Prod.mk.inj hm
  refine ⟨_, apart_of_frame hap rfl hs1 ?_ ?_⟩
  · intro x hx
    simp only [List.nil_append, List.mem_cons] at hx
    rcases hx with rfl | rfl | hx
    · exact Or.inl (List.mem_cons_self _ _)
    · exact Or.inr (le_refl _)
    · exact Or.inl (List.mem_cons_of_mem _ hx)
  · intro c hc hne
    exact hfr1 c (fun hh => hne (L.head_, d) (List.mem_cons_self _ _) hh.symm) hc

theorem insertAfter_apart {h h' : Heap T} {L L' : SingleLinkedList}
    {fl fo : List (Nat × T)} {q i : Nat} {v : T} {pos it : BasicIterator}
    (hap : Apart h L fl q fo) (hpos : advance h (before_begin L) i = .ok pos)
    (hm : InsertAfter h L pos v = .ok (h', L', it)) :
    ∃ fl', Apart h' L' fl' q fo := by
  rcases advance_ok_cases hap.1 hpos with hlt | ⟨_, rfl⟩
  · obtain ⟨l1, a, w, l2, rfl, _, rfl⟩ := position_of_advance hap.1 hlt hpos
    obtain ⟨h1, hins, hs1, _, hfr1⟩ := insertAfter_seg L v hap.1
    rw [hins] at hm
    injection hm with hm
    obtain ⟨rfl, hm2⟩ := Prod.mk.inj hm
    obtain ⟨rfl, _⟩ := Prod.mk.inj hm2
    refine ⟨_, apart_of_frame hap rfl hs1 ?_ ?_⟩
    · intro x hx
      simp only [List.mem_append, List.mem_cons] at hx ⊢
      rcases hx with hx | rfl | rfl | hx
      · exact Or.inl (Or.inl hx)
      · exact Or.inl (Or.inr (Or.inl rfl))
      · exact Or.inr (le_refl _)
      · exact Or.inl (Or.inr (Or.inr hx))
    · intro c hc hne
      exact hfr1 c (fun hh => hne (a, w) (by simp) hh.symm) hc
  · simp [InsertAfter] at hm

theorem eraseAfter_apart {h h' : Heap T} {L L' : SingleLinkedList}
    {fl fo : List (Nat × T)} {q i : Nat} {pos it : BasicIterator}
    (hap : Apart h L fl q fo) (hpos : advance h (before_begin L) i = .ok pos)
    (hm : EraseAfter h L pos = .ok (h', L', it)) :
    ∃ fl', Apart h' L' fl' q fo := by
  rcases advance_ok_cases hap.1 hpos with hlt | ⟨_, rfl⟩
  · obtain ⟨l1, a, w, l2, rfl, _, rfl⟩ := position_of_advance hap.1 hlt hpos
    cases l2 with
    | nil =>
      obtain ⟨m, _, hm2⟩ := seg_append.1 hap.1
      obtain ⟨_, nx, hl, hr⟩ := hm2
      simp only [Seg] at hr
      subst hr
      simp [EraseAfter, hl, bind, Except.bind] at hm
    | cons y l3 =>
      obtain ⟨b, u⟩ := y
      obtain ⟨h1, nx, her, hs1, _, hfr1⟩ := eraseAfter_seg_frame L hap.1
      rw [her] at hm
      injection hm with hm
      obtain ⟨rfl, hm2⟩ := Prod.mk.inj hm
      obtain ⟨rfl, _⟩ := Prod.mk.inj hm2
      refine ⟨_, apart_of_frame hap rfl hs1 ?_ ?_⟩
      · intro x hx
        simp only [List.mem_append, List.mem_cons] at hx ⊢
        rcases hx with hx | rfl | hx
        · exact Or.inl (Or.inl hx)
        · exact Or.inl (Or.inr (Or.inl rfl))
        · exact Or.inl (Or.inr (Or.inr (Or.inr hx)))
      · intro c _ hne
        exact hfr1 c (fun hh => hne (a, w) (by simp) hh.symm)
          (fun hh => hne (b, u) (by simp) hh.symm)
  · simp [EraseAfter] at hm

theorem popFront_apart {h h' : Heap T} {L L' : SingleLinkedList} {fl fo : List (Nat × T)}
    {q : Nat} (hap : Apart h L fl q fo) (hm : PopFront h L = .ok (h', L')) :
    ∃ fl', Apart h' L' fl' q fo ∧ fl'.length < fl.length := by
  obtain ⟨d, ns, rfl⟩ := seg_some_cons hap.1
  have hsz : L.size_ ≠ 0 := by
    intro h0
    rw [popFront_empty h0] at hm
    cases hm
  cases ns with
  | nil =>
    obtain ⟨_, nx, hl, hr⟩ := hap.1
    simp only [Seg] at hr
    subst hr
    simp [PopFront, IsEmpty, hsz, hl, bind, Except.bind] at hm
  | cons y ns' =>
    obtain ⟨b, u⟩ := y
    obtain ⟨h1, hp, hs1, _, hfr1⟩ := popFront_seg_frame L hsz hap.1
    rw [hp] at hm
    injection hm with hm
    obtain ⟨rfl, rfl⟩ := Prod.mk.inj hm
    refine ⟨_, apart_of_frame hap rfl hs1 ?_ ?_, by simp⟩
    · intro x hx
      simp only [List.mem_cons] at hx ⊢
      rcases hx with rfl | hx
      · exact Or.inl (Or.inl rfl)
      · exact Or.inl (Or.inr (Or.inr hx))
    · intro c _ hne
      exact hfr1 c (fun hh => hne (L.head_, d) (by simp) hh.symm)
        (fun hh => hne (b, u) (by simp) hh.symm)

theorem clearLoop_apart {fo : List (Nat × T)} {q : Nat} (fuel : Nat) :
    ∀ {h h' : Heap T} {L L' : SingleLinkedList} {fl : List (Nat × T)},
      Apart h L fl q fo → ClearLoop h L fuel = .ok (h', L') →
      ∃ fl', Apart h' L' fl' q fo := by
  induction fuel with
  | zero =>
    intro h h' L L' fl _ hm
    simp [ClearLoop] at hm
  | succ f ih =>
    intro h h' L L' fl hap hm
    cases hl : h.load L.head_ with
    | error e => simp [ClearLoop, hl, bind, Except.bind] at hm
    | ok hd =>
      cases hn : hd.next_node with
      | none =>
        simp [ClearLoop, hl, hn, bind, Except.bind, pure, Except.pure] at hm
        obtain ⟨rfl, rfl⟩ := hm
        exact ⟨fl, hap⟩
      | some b =>
        cases hp : PopFront h L with
        | error e => simp [ClearLoop, hl, hn, hp, bind, Except.bind] at hm
        | ok r =>
          obtain ⟨h1, L1⟩ := r
          simp [ClearLoop, hl, hn, hp, bind, Except.bind] at hm
          obtain ⟨fl1, hap1, _⟩ := popFront_apart hap hp
          exact ih hap1 hm

theorem mutation_apart {h h' : Heap T} {L L' : SingleLinkedList} {fl fo : List (Nat × T)}
    {q : Nat} (m : Mutation T) (hap : Apart h L fl q fo)
    (hm : m.apply h L = .ok (h', L')) : ∃ fl', Apart h' L' fl' q fo := by
  cases m with
  | pushFront v => exact pushFront_apart hap hm
  | popFront =>
    obtain ⟨fl', h1, _⟩ := popFront_apart hap hm
    exact ⟨fl', h1⟩
  | insertAfter i v =>
    simp only [Mutation.apply] at hm
    cases hpos : advance h (before_begin L) i with
    | error e => simp [hpos, bind, Except.bind] at hm
    | ok pos =>
      cases hins : InsertAfter h L pos v with
      | error e => simp [hpos, hins, bind, Except.bind] at hm
      | ok r =>
        obtain ⟨h1, L1, it⟩ := r
        simp [hpos, hins, bind, Except.bind, pure, Except.pure] at hm
        obtain ⟨rfl, rfl⟩ := hm
        exact insertAfter_apart hap hpos hins
  | eraseAfter i =>
    simp only [Mutation.apply] at hm
    cases hpos : advance h (before_begin L) i with
    | error e => simp [hpos, bind, Except.bind] at hm
    | ok pos =>
      cases her : EraseAfter h L pos with
      | error e => simp [hpos, her, bind, Except.bind] at hm
      | ok r =>
        obtain ⟨h1, L1, it⟩ := r
        simp [hpos, her, bind, Except.bind, pure, Except.pure] at hm
        obtain ⟨rfl, rfl⟩ := hm
        exact eraseAfter_apart hap hpos her
  | clear => exact clearLoop_apart _ hap hm

theorem applyAll_apart {fo : List (Nat × T)} {q : Nat} (ms : List (Mutation T)) :
    ∀ {h h' : Heap T} {L L' : SingleLinkedList} {fl : List (Nat × T)},
      Apart h L fl q fo → applyAll h L ms = .ok (h', L') →
      ∃ fl', Apart h' L' fl' q fo := by
  induction ms with
  | nil =>
    intro h h' L L' fl hap hm
    simp only [applyAll, pure, Except.pure] at hm
    injection hm with hm
    obtain ⟨rfl, rfl⟩ := Prod.mk.inj hm
    exact ⟨fl, hap⟩
  | cons m ms ih =>
    intro h h' L L' fl hap hm
    cases h1 : m.apply h L with
    | error e => simp [applyAll, h1, bind, Except.bind] at hm
    | ok r =>
      obtain ⟨hh, LL⟩ := r
      simp only [applyAll, h1, bind, Except.bind] at hm
      obtain ⟨fl1, hap1⟩ := mutation_apart m hap h1
      exact ih hap1 hm

/-- Mutating one list leaves the iteration of a list it shares no node with unchanged. -/
theorem applyAll_elements {h h' : Heap T} {L L' other : SingleLinkedList}
    {fl fo : List (Nat × T)} (ms : List (Mutation T))
    (hl : Seg h (some L.head_) fl none) (ho : Seg h (some other.head_) fo none)
    (hdis : ∀ x ∈ fl, ∀ y ∈ fo, x.1 ≠ y.1)
    (hm : applyAll h L ms = .ok (h', L')) :
    elements h' other = elements h other := by
  obtain ⟨fl', _, ho', _⟩ := applyAll_apart ms (⟨hl, ho, hdis⟩ : Apart h L fl other.head_ fo) hm
  rw [elements_of_seg ho', elements_of_seg ho]

theorem sizeInv_of_seg {h : Heap T} {L : SingleLinkedList} {d : T} {ns : List (Nat × T)}
    (hs : Seg h (some L.head_) ((L.head_, d) :: ns) none) (hsz : L.size_ = ns.length)
    (hcap : ns.length < SIZE_MOD) : SizeInv h L := by
  refine sizeInv_iff.2 ⟨ns.map Prod.snd, ?_, by simpa using hsz, by simpa using hcap⟩
  have := elements_of_seg hs
  simpa using this

theorem seg_of_sizeInv {h : Heap T} {L : SingleLinkedList} (hinv : SizeInv h L) :
    ∃ d ns, Seg h (some L.head_) ((L.head_, d) :: ns) none ∧ L.size_ = ns.length
      ∧ ns.length < SIZE_MOD := by
  obtain ⟨s, hel, hsz, hcap⟩ := sizeInv_iff.1 hinv
  obtain ⟨d, ns, hs, rfl⟩ := seg_of_elements hel
  exact ⟨d, ns, hs, by simpa using hsz, by simpa using hcap⟩

theorem assign_seg [Inhabited T] {h : Heap T} (lhs rhs : SingleLinkedList) {dl dr : T}
    {nl nr : List (Nat × T)}
    (hl : Seg h (some lhs.head_) ((lhs.head_, dl) :: nl) none)
    (hr : Seg h (some rhs.head_) ((rhs.head_, dr) :: nr) none)
    (hdis : ∀ x ∈ (lhs.head_, dl) :: nl, ∀ y ∈ (rhs.head_, dr) :: nr, x.1 ≠ y.1)
    (hlsz : lhs.size_ = nl.length) (hlcap : nl.length < SIZE_MOD)
    (hrcap : nr.length < SIZE_MOD) :
    ∃ h' ns, operator_assign h lhs rhs = .ok (h', { lhs with size_ := nr.length })
      ∧ Seg h' (some lhs.head_) ((lhs.head_, dl) :: ns) none
      ∧ ns.map Prod.snd = nr.map Prod.snd
      ∧ Seg h' (some rhs.head_) ((rhs.head_, dr) :: nr) none
      ∧ (∀ x ∈ (lhs.head_, dl) :: ns, ∀ y ∈ (rhs.head_, dr) :: nr, x.1 ≠ y.1) := by
  have hne : lhs.head_ ≠ rhs.head_ :=
    hdis (lhs.head_, dl) (List.mem_cons_self _ _) (rhs.head_, dr) (List.mem_cons_self _ _)
  have hltl := seg_lt hl
  have hltr := seg_lt hr
  have hnl := seg_not_mem hl
  obtain ⟨h1, ns, hcopy, hs1, hmap, hfresh, hfr1, hlen1⟩ := copy_seg rhs hr hrcap
  have hl1 : Seg h1 (some lhs.head_) ((lhs.head_, dl) :: nl) none :=
    seg_frame (fun x hx => hfr1 x.1 (hltl x hx)) hl
  have hr1 : Seg h1 (some rhs.head_) ((rhs.head_, dr) :: nr) none :=
    seg_frame (fun x hx => hfr1 x.1 (hltr x hx)) hr
  have hts : Seg h1 (some (⟨h.length, nr.length⟩ : SingleLinkedList).head_)
      (((⟨h.length, nr.length⟩ : SingleLinkedList).head_, (default : T)) :: ns) none := hs1
  have hdis1 : ∀ x ∈ (lhs.head_, dl) :: nl,
      ∀ y ∈ ((⟨h.length, nr.length⟩ : SingleLinkedList).head_, (default : T)) :: ns,
        x.1 ≠ y.1 := by
    intro x hx y hy
    have hx' := hltl x hx
    rcases List.mem_cons.1 hy with rfl | hy
    · simp only; omega
    · have := hfresh y hy
      omega
  obtain ⟨h2, hsw, hs2l, hs2t, hlen2, hfr2⟩ :=
    swap_seg lhs (⟨h.length, nr.length⟩ : SingleLinkedList) hl1 hts hdis1
  dsimp only at hsw hs2l hs2t hfr2
  have hs2t' : Seg h2 (some (⟨h.length, lhs.size_⟩ : SingleLinkedList).head_)
      (((⟨h.length, lhs.size_⟩ : SingleLinkedList).head_, (default : T)) :: nl) none := hs2t
  obtain ⟨h3, hd, hlen3, hfr3⟩ :=
    dtor_seg (⟨h.length, lhs.size_⟩ : SingleLinkedList) hs2t' hlsz hlcap
  dsimp only at hfr3
  have hLH : lhs.head_ < h.length := hltl (lhs.head_, dl) (List.mem_cons_self _ _)
  refine ⟨h3, ns, ?_, ?_, hmap, ?_, ?_⟩
  · simp only [operator_assign, hne, ne_eq, not_false_eq_true, if_true, hcopy, hsw, hd, bind,
      Except.bind, pure, Except.pure]
  · refine seg_frame ?_ hs2l
    intro x hx
    refine hfr3 x.1 ?_ ?_
    · rcases List.mem_cons.1 hx with rfl | hx
      · simp only; omega
      · have := hfresh x hx
        omega
    · intro y hy hyx
      rcases List.mem_cons.1 hx with rfl | hx
      · exact hnl y hy hyx
      · have := hfresh x hx
        have := hltl y (List.mem_cons_of_mem _ hy)
        omega
  · refine seg_frame ?_ hr1
    intro y hy
    have hy' := hltr y hy
    have hyl : y.1 ≠ lhs.head_ := fun hh =>
      hdis (lhs.head_, dl) (List.mem_cons_self _ _) y hy hh.symm
    rw [hfr3 y.1 (by omega) (fun x hx hxy => hdis x (List.mem_cons_of_mem _ hx) y hy hxy),
      hfr2 y.1 hyl (by omega)]
  · intro x hx y hy
    rcases List.mem_cons.1 hx with rfl | hx
    · exact hdis (lhs.head_, dl) (List.mem_cons_self _ _) y hy
    · have := hfresh x hx
      have := hltr y hy
      omega

theorem assign_self [Inhabited T] (h : Heap T) (lhs : SingleLinkedList) :
    operator_assign h lhs lhs = .ok (h, lhs) := by
  simp [operator_assign, pure, Except.pure]


/-- Claim C12. Copy-constructing `L2` from a list `L` with element sequence `s` returns;
`L2` holds `s` with the same size, `L2 == L` is true, `L` still holds `s`, the two lists
share no node, and no sequence of mutating calls on `L2` (`PushFront`, `PopFront`,
`InsertAfter`, `EraseAfter`, `Clear` at positions of `L2`) changes what `L` holds. -/
theorem copy_spec [Inhabited T] [DecidableEq T] (h : Heap T) (L : SingleLinkedList)
    (s : List T) (hel : elements h L = .ok s) (hinv : SizeInv h L) :
    ∃ h1 L2, SingleLinkedList.copy h L = .ok (h1, L2)
      ∧ elements h1 L2 = .ok s ∧ GetSize L2 = GetSize L
      ∧ operator_eq h1 L2 L = .ok true
      ∧ elements h1 L = .ok s
      ∧ Separate h1 L2 L
      ∧ ∀ (ms : List (Mutation T)) (h2 : Heap T) (L2' : SingleLinkedList),
          applyAll h1 L2 ms = .ok (h2, L2') → elements h2 L = .ok s := by
  obtain ⟨d, no, ho, hsz, hcap⟩ := seg_of_sizeInv hinv
  have hs : s = no.map Prod.snd := by
    have := elements_of_seg ho
    rw [hel] at this
    simpa using this
  subst hs
  have hlt := seg_lt ho
  obtain ⟨h1, ns, hcopy, hs1, hmap, hfresh, hfr1, _⟩ := copy_seg L ho hcap
  have ho1 : Seg h1 (some L.head_) ((L.head_, d) :: no) none :=
    seg_frame (fun x hx => hfr1 x.1 (hlt x hx)) ho
  have hs1' : Seg h1 (some (⟨h.length, no.length⟩ : SingleLinkedList).head_)
      ((h.length, (default : T)) :: ns) none := hs1
  have hdis : ∀ x ∈ (h.length, (default : T)) :: ns, ∀ y ∈ (L.head_, d) :: no, x.1 ≠ y.1 := by
    intro x hx y hy
    have hy' := hlt y hy
    rcases List.mem_cons.1 hx with rfl | hx
    · simp only; omega
    · have := hfresh x hx
      omega
  have hel2 : elements h1 (⟨h.length, no.length⟩ : SingleLinkedList)
      = .ok (no.map Prod.snd) := by
    have := elements_of_seg hs1'
    simpa [hmap] using this
  have hel1 : elements h1 L = .ok (no.map Prod.snd) := by
    have := elements_of_seg ho1
    simpa using this
  refine ⟨h1, _, hcopy, hel2, hsz.symm, ?_, hel1, separate_of_chains hs1' ho1 hdis, ?_⟩
  · rw [operator_eq_of_elements hel2 hel1]
    simp
  · intro ms h2 L2' hm
    rw [applyAll_elements ms hs1' ho1 hdis hm]
    exact hel1

theorem copy_spec_witness :
    elements demoHeap demoB = .ok [1, 2, 3] ∧ SizeInv demoHeap demoB ∧
    ∃ h1 L2, SingleLinkedList.copy demoHeap demoB = .ok (h1, L2)
      ∧ elements h1 L2 = .ok [1, 2, 3] ∧ GetSize L2 = GetSize demoB
      ∧ operator_eq h1 L2 demoB = .ok true
      ∧ elements h1 demoB = .ok [1, 2, 3]
      ∧ Separate h1 L2 demoB
      ∧ ∀ (ms : List (Mutation Int)) (h2 : Heap Int) (L2' : SingleLinkedList),
          applyAll h1 L2 ms = .ok (h2, L2') → elements h2 demoB = .ok [1, 2, 3] :=
  ⟨rfl, ⟨rfl, by rw [SIZE_MOD_eq]; decide⟩,
    copy_spec demoHeap demoB [1, 2, 3] rfl ⟨rfl, by rw [SIZE_MOD_eq]; decide⟩⟩

/-- Claim C13. For two separate lists, after `lhs = rhs` the list `lhs` holds the element
sequence and size of `rhs`, `lhs == rhs` is true, `rhs` is unchanged, and the two lists
share no node: no sequence of mutating calls on one of them changes what the other holds.
The list object after the call is the one assigned to (same sentinel as `lhs`): walking
from the sentinel of `lhs` yields the elements of `rhs`.
Self-assignment returns the memory and the list object unchanged. -/
theorem assign_spec [Inhabited T] [DecidableEq T] (h : Heap T) (lhs rhs : SingleLinkedList)
    (sr : List T) (hr : elements h rhs = .ok sr)
    (hlinv : SizeInv h lhs) (hrinv : SizeInv h rhs) (hsep : Separate h lhs rhs) :
    (∃ h' lhs', operator_assign h lhs rhs = .ok (h', lhs')
      ∧ elements h' lhs' = .ok sr ∧ GetSize lhs' = GetSize rhs
      ∧ operator_eq h' lhs' rhs = .ok true
      ∧ elements h' rhs = .ok sr
      ∧ Separate h' lhs' rhs
      ∧ (∀ (ms : List (Mutation T)) (h2 : Heap T) (L' : SingleLinkedList),
          applyAll h' lhs' ms = .ok (h2, L') → elements h2 rhs = .ok sr)
      ∧ (∀ (ms : List (Mutation T)) (h2 : Heap T) (R' : SingleLinkedList),
          applyAll h' rhs ms = .ok (h2, R') → elements h2 lhs' = .ok sr)
      ∧ lhs'.head_ = lhs.head_
      ∧ elements h' lhs = .ok sr)
    ∧ operator_assign h lhs lhs = .ok (h, lhs) := by
  refine ⟨?_, assign_self h lhs⟩
  obtain ⟨dl, nl, hl, hlsz, hlcap⟩ := seg_of_sizeInv hlinv
  obtain ⟨dr, nr, hrs, hrsz, hrcap⟩ := seg_of_sizeInv hrinv
  have hs : sr = nr.map Prod.snd := by
    have := elements_of_seg hrs
    rw [hr] at this
    simpa using this
  subst hs
  have hdis := separate_chains hl hrs hsep
  obtain ⟨h', ns, has, hs1, hmap, hs2, hdis'⟩ := assign_seg lhs rhs hl hrs hdis hlsz hlcap hrcap
  have hs1' : Seg h' (some ({ lhs with size_ := nr.length } : SingleLinkedList).head_)
      ((lhs.head_, dl) :: ns) none := hs1
  have hel1 : elements h' ({ lhs with size_ := nr.length } : SingleLinkedList)
      = .ok (nr.map Prod.snd) := by
    have := elements_of_seg hs1'
    simpa [hmap] using this
  have hel2 : elements h' rhs = .ok (nr.map Prod.snd) := by
    have := elements_of_seg hs2
    simpa using this
  have hel0 : elements h' lhs = .ok (nr.map Prod.snd) := by
    have := elements_of_seg hs1
    simpa [hmap] using this
  refine ⟨h', _, has, hel1, hrsz.symm, ?_, hel2, separate_of_chains hs1' hs2 hdis', ?_, ?_,
    rfl, hel0⟩
  · rw [operator_eq_of_elements hel1 hel2]
    simp
  · intro ms h2 L' hm
    rw [applyAll_elements ms hs1' hs2 hdis' hm]
    exact hel2
  · intro ms h2 R' hm
    rw [applyAll_elements ms hs2 hs1' (fun x hx y hy hxy => hdis' y hy x hx hxy.symm) hm]
    exact hel1

theorem assign_spec_witness :
    elements demoHeap demoB = .ok [1, 2, 3] ∧ SizeInv demoHeap demoA ∧
    SizeInv demoHeap demoB ∧ Separate demoHeap demoA demoB ∧
    (∃ h' lhs', operator_assign demoHeap demoA demoB = .ok (h', lhs')
      ∧ elements h' lhs' = .ok [1, 2, 3] ∧ GetSize lhs' = GetSize demoB
      ∧ operator_eq h' lhs' demoB = .ok true
      ∧ elements h' demoB = .ok [1, 2, 3]
      ∧ lhs'.head_ = demoA.head_
      ∧ elements h' demoA = .ok [1, 2, 3]) ∧
    operator_assign demoHeap demoA demoA = .ok (demoHeap, demoA) := by
  have hA : SizeInv demoHeap demoA := ⟨rfl, by rw [SIZE_MOD_eq]; decide⟩
  have hB : SizeInv demoHeap demoB := ⟨rfl, by rw [SIZE_MOD_eq]; decide⟩
  have hS : Separate demoHeap demoA demoB := ⟨[0, 1, 2], [3, 4, 5, 6], rfl, rfl, by decide⟩
  obtain ⟨⟨h', lhs', h1, h2, h3, h4, h5, _, _, _, h9, h10⟩, hself⟩ :=
    assign_spec demoHeap demoA demoB [1, 2, 3] rfl hA hB hS
  exact ⟨rfl, hA, hB, hS, ⟨h', lhs', h1, h2, h3, h4, h5, h9, h10⟩, hself⟩


theorem sizeInv_of_chain {h : Heap T} {L : SingleLinkedList} {full : List (Nat × T)}
    (hs : Seg h (some L.head_) full none) (hsz : L.size_ + 1 = full.length)
    (hcap : L.size_ < SIZE_MOD) : SizeInv h L := by
  obtain ⟨d, ns, rfl⟩ := seg_some_cons hs
  have hsz' : L.size_ = ns.length := by simpa using hsz
  exact sizeInv_of_seg hs hsz' (by rw [← hsz']; exact hcap)

theorem sizeInv_ctor [Inhabited T] (h : Heap T) :
    SizeInv (SingleLinkedList.ctor h).1 (SingleLinkedList.ctor (T := T) h).2 := by
  have hs : Seg (SingleLinkedList.ctor h).1
      (some (SingleLinkedList.ctor (T := T) h).2.head_)
      [((SingleLinkedList.ctor (T := T) h).2.head_, (default : T))] none :=
    ⟨rfl, none, load_alloc_new h _, rfl⟩
  exact sizeInv_of_seg hs rfl (by rw [SIZE_MOD_eq]; simp)

theorem sizeInv_ofValues [Inhabited T] (h : Heap T) (s : List T)
    (hlen : s.length < SIZE_MOD) :
    ∃ h' L, SingleLinkedList.ofValues h s = .ok (h', L) ∧ SizeInv h' L := by
  obtain ⟨h', ns, hof, hs, hmap, _⟩ := ofValues_seg_frame h s hlen
  have hl : ns.length = s.length := by rw [← hmap]; simp
  have hs' : Seg h' (some (⟨h.length, s.length⟩ : SingleLinkedList).head_)
      (((⟨h.length, s.length⟩ : SingleLinkedList).head_, (default : T)) :: ns) none := hs
  exact ⟨h', _, hof, sizeInv_of_seg hs' hl.symm (by rw [hl]; exact hlen)⟩

theorem sizeInv_pushFront {h : Heap T} {L : SingleLinkedList} (v : T)
    (hinv : SizeInv h L) (hcap : GetSize L + 1 < SIZE_MOD) :
    ∃ h' L', PushFront h L v = .ok (h', L') ∧ SizeInv h' L' := by
  obtain ⟨d, ns, hs, hsz, _⟩ := seg_of_sizeInv hinv
  obtain ⟨h', hp, _, hs', _⟩ := pushFront_seg L v hs
  have hmod : (L.size_ + 1) % SIZE_MOD = L.size_ + 1 := Nat.mod_eq_of_lt hcap
  have hs'' : Seg h' (some ({ L with size_ := (L.size_ + 1) % SIZE_MOD } : SingleLinkedList).head_)
      ((L.head_, d) :: (h.length, v) :: ns) none := hs'
  refine ⟨h', _, hp, sizeInv_of_chain hs'' ?_ ?_⟩
  · show (L.size_ + 1) % SIZE_MOD + 1 = ((L.head_, d) :: (h.length, v) :: ns).length
    rw [hmod, hsz]; simp
  · show (L.size_ + 1) % SIZE_MOD < SIZE_MOD
    rw [hmod]; exact hcap

theorem sizeInv_popFront {h : Heap T} {L : SingleLinkedList}
    (hinv : SizeInv h L) (hne : IsEmpty L = false) :
    ∃ h' L', PopFront h L = .ok (h', L') ∧ SizeInv h' L' := by
  obtain ⟨d, ns, hs, hsz, hcap⟩ := seg_of_sizeInv hinv
  have hsz0 : L.size_ ≠ 0 := by simpa [IsEmpty] using hne
  cases ns with
  | nil => exact absurd hsz hsz0
  | cons y ns' =>
    obtain ⟨b, u⟩ := y
    obtain ⟨h', hp, hs', _⟩ := popFront_seg L hsz0 hs
    have hpred : (L.size_ + SIZE_MOD - 1) % SIZE_MOD = ns'.length := by
      rw [hsz]; exact size_pred (by simpa using hcap)
    have hs'' : Seg h'
        (some ({ L with size_ := (L.size_ + SIZE_MOD - 1) % SIZE_MOD } : SingleLinkedList).head_)
        ((L.head_, d) :: ns') none := hs'
    refine ⟨h', _, hp, sizeInv_of_chain hs'' ?_ ?_⟩
    · show (L.size_ + SIZE_MOD - 1) % SIZE_MOD + 1 = ((L.head_, d) :: ns').length
      rw [hpred]; simp
    · show (L.size_ + SIZE_MOD - 1) % SIZE_MOD < SIZE_MOD
      rw [hpred]
      simp only [List.length_cons] at hcap
      omega

theorem sizeInv_insertAfter {h : Heap T} {L : SingleLinkedList} {i : Nat}
    {pos : BasicIterator} (v : T) (hinv : SizeInv h L) (hcap : GetSize L + 1 < SIZE_MOD)
    (hi : i ≤ GetSize L) (hpos : advance h (before_begin L) i = .ok pos) :
    ∃ h' L' it, InsertAfter h L pos v = .ok (h', L', it) ∧ SizeInv h' L' := by
  obtain ⟨d, ns, hs, hsz, _⟩ := seg_of_sizeInv hinv
  have hi' : i ≤ L.size_ := hi
  obtain ⟨l1, a, w, l2, hfull, hlen, rfl⟩ :=
    position_of_advance hs (by simp only [List.length_cons]; omega) hpos
  have hl := congrArg List.length hfull
  simp only [List.length_cons, List.length_append] at hl
  rw [hfull] at hs
  obtain ⟨h', hins, hs', _, _⟩ := insertAfter_seg L v hs
  have hmod : (L.size_ + 1) % SIZE_MOD = L.size_ + 1 := Nat.mod_eq_of_lt hcap
  have hs'' : Seg h' (some ({ L with size_ := (L.size_ + 1) % SIZE_MOD } : SingleLinkedList).head_)
      (l1 ++ (a, w) :: (h.length, v) :: l2) none := hs'
  refine ⟨h', _, _, hins, sizeInv_of_chain hs'' ?_ ?_⟩
  · show (L.size_ + 1) % SIZE_MOD + 1 = (l1 ++ (a, w) :: (h.length, v) :: l2).length
    rw [hmod]
    simp only [List.length_cons, List.length_append]
    omega
  · show (L.size_ + 1) % SIZE_MOD < SIZE_MOD
    rw [hmod]; exact hcap

theorem sizeInv_eraseAfter {h : Heap T} {L : SingleLinkedList} {i : Nat}
    {pos : BasicIterator} (hinv : SizeInv h L)
    (hi : i < GetSize L) (hpos : advance h (before_begin L) i = .ok pos) :
    ∃ h' L' it, EraseAfter h L pos = .ok (h', L', it) ∧ SizeInv h' L' := by
  obtain ⟨d, ns, hs, hsz, hcap⟩ := seg_of_sizeInv hinv
  have hi' : i < L.size_ := hi
  obtain ⟨l1, a, w, l2, hfull, hlen, rfl⟩ :=
    position_of_advance hs (by simp only [List.length_cons]; omega) hpos
  have hl := congrArg List.length hfull
  simp only [List.length_cons, List.length_append] at hl
  cases l2 with
  | nil =>
    simp only [List.length_nil] at hl
    omega
  | cons y l3 =>
    obtain ⟨b, u⟩ := y
    simp only [List.length_cons] at hl
    rw [hfull] at hs
    obtain ⟨h', nx, her, hs', _, _⟩ := eraseAfter_seg L hs
    obtain ⟨n, hn⟩ : ∃ n, L.size_ = n + 1 := ⟨L.size_ - 1, by omega⟩
    have hpred : (L.size_ + SIZE_MOD - 1) % SIZE_MOD = n := by
      rw [hn]; exact size_pred (by omega)
    have hs'' : Seg h'
        (some ({ L with size_ := (L.size_ + SIZE_MOD - 1) % SIZE_MOD } : SingleLinkedList).head_)
        (l1 ++ (a, w) :: l3) none := hs'
    refine ⟨h', _, _, her, sizeInv_of_chain hs'' ?_ ?_⟩
    · show (L.size_ + SIZE_MOD - 1) % SIZE_MOD + 1 = (l1 ++ (a, w) :: l3).length
      rw [hpred]
      simp only [List.length_cons, List.length_append]
      omega
    · show (L.size_ + SIZE_MOD - 1) % SIZE_MOD < SIZE_MOD
      rw [hpred]; omega

theorem sizeInv_clear {h : Heap T} {L : SingleLinkedList} (hinv : SizeInv h L) :
    ∃ h' L', Clear h L = .ok (h', L') ∧ SizeInv h' L' := by
  obtain ⟨d, ns, hs, hsz, hcap⟩ := seg_of_sizeInv hinv
  obtain ⟨h', hc, hs', _, _⟩ := clearLoop_seg L hs hsz hcap (L.size_ + 1) (by omega)
  have hs'' : Seg h' (some ({ L with size_ := 0 } : SingleLinkedList).head_)
      [(({ L with size_ := 0 } : SingleLinkedList).head_, d)] none := hs'
  exact ⟨h', _, hc, sizeInv_of_seg hs'' rfl (by rw [SIZE_MOD_eq]; simp)⟩

theorem sizeInv_swap {h : Heap T} {a b : SingleLinkedList}
    (ha : SizeInv h a) (hb : SizeInv h b) (hsep : a = b ∨ Separate h a b) :
    ∃ h' a' b', swap h a b = .ok (h', a', b') ∧ SizeInv h' a' ∧ SizeInv h' b' := by
  rcases hsep with rfl | hsep
  · obtain ⟨d, ns, hs, _, _⟩ := seg_of_sizeInv ha
    obtain ⟨_, nx, hl, _⟩ := hs
    exact ⟨h, a, a, swap_self hl, ha, ha⟩
  · obtain ⟨da, na, hsa, hsza, hcapa⟩ := seg_of_sizeInv ha
    obtain ⟨db, nb, hsb, hszb, hcapb⟩ := seg_of_sizeInv hb
    obtain ⟨h', hsw, hsa', hsb', _, _⟩ := swap_seg a b hsa hsb (separate_chains hsa hsb hsep)
    have h1 : Seg h' (some ({ a with size_ := b.size_ } : SingleLinkedList).head_)
        ((({ a with size_ := b.size_ } : SingleLinkedList).head_, da) :: nb) none := hsa'
    have h2 : Seg h' (some ({ b with size_ := a.size_ } : SingleLinkedList).head_)
        ((({ b with size_ := a.size_ } : SingleLinkedList).head_, db) :: na) none := hsb'
    exact ⟨h', _, _, hsw, sizeInv_of_seg h1 hszb hcapb, sizeInv_of_seg h2 hsza hcapa⟩

theorem sizeInv_copy [Inhabited T] {h : Heap T} {L : SingleLinkedList} (hinv : SizeInv h L) :
    ∃ h' L2, SingleLinkedList.copy h L = .ok (h', L2) ∧ SizeInv h' L2 ∧ SizeInv h' L := by
  obtain ⟨d, no, ho, hsz, hcap⟩ := seg_of_sizeInv hinv
  have hlt := seg_lt ho
  obtain ⟨h1, ns, hcopy, hs1, hmap, _, hfr1, _⟩ := copy_seg L ho hcap
  have ho1 : Seg h1 (some L.head_) ((L.head_, d) :: no) none :=
    seg_frame (fun x hx => hfr1 x.1 (hlt x hx)) ho
  have hl : ns.length = no.length := by
    have := congrArg List.length hmap
    simpa using this
  have hs1' : Seg h1 (some (⟨h.length, no.length⟩ : SingleLinkedList).head_)
      (((⟨h.length, no.length⟩ : SingleLinkedList).head_, (default : T)) :: ns) none := hs1
  exact ⟨h1, _, hcopy, sizeInv_of_seg hs1' hl.symm (by rw [hl]; exact hcap),
    sizeInv_of_seg ho1 hsz hcap⟩

theorem sizeInv_assign [Inhabited T] {h : Heap T} {lhs rhs : SingleLinkedList}
    (hl : SizeInv h lhs) (hr : SizeInv h rhs) (hsep : lhs = rhs ∨ Separate h lhs rhs) :
    ∃ h' lhs', operator_assign h lhs rhs = .ok (h', lhs') ∧ SizeInv h' lhs'
      ∧ SizeInv h' rhs := by
  rcases hsep with rfl | hsep
  · exact ⟨h, lhs, assign_self h lhs, hl, hl⟩
  · obtain ⟨dl, nl, hsl, hlsz, hlcap⟩ := seg_of_sizeInv hl
    obtain ⟨dr, nr, hsr, hrsz, hrcap⟩ := seg_of_sizeInv hr
    have hdis := separate_chains hsl hsr hsep
    obtain ⟨h', ns, has, hs1, hmap, hs2, _⟩ :=
      assign_seg lhs rhs hsl hsr hdis hlsz hlcap hrcap
    have hlen : ns.length = nr.length := by
      have := congrArg List.length hmap
      simpa using this
    have hs1' : Seg h' (some ({ lhs with size_ := nr.length } : SingleLinkedList).head_)
        ((({ lhs with size_ := nr.length } : SingleLinkedList).head_, dl) :: ns) none := hs1
    exact ⟨h', _, has, sizeInv_of_seg hs1' hlen.symm (by rw [hlen]; exact hrcap),
      sizeInv_of_seg hs2 hrsz hrcap⟩

/-- Claim C11. The size invariant (the stored `size_` equals the number of element nodes
reachable from the sentinel) holds for a default-constructed list and for a list
constructed from a sequence, and every operation called within its precondition, on
positions of the list itself, returns a state in which it holds again: `PushFront`,
`PopFront`, `InsertAfter`, `EraseAfter`, `Clear`, `swap`, copy construction, assignment. -/
theorem size_invariant [Inhabited T] :
    (∀ h : Heap T, SizeInv (SingleLinkedList.ctor h).1 (SingleLinkedList.ctor (T := T) h).2)
    ∧ (∀ (h : Heap T) (s : List T), s.length < SIZE_MOD →
        ∃ h' L, SingleLinkedList.ofValues h s = .ok (h', L) ∧ SizeInv h' L)
    ∧ (∀ (h : Heap T) (L : SingleLinkedList) (v : T),
        SizeInv h L → GetSize L + 1 < SIZE_MOD →
        ∃ h' L', PushFront h L v = .ok (h', L') ∧ SizeInv h' L')
    ∧ (∀ (h : Heap T) (L : SingleLinkedList), SizeInv h L → IsEmpty L = false →
        ∃ h' L', PopFront h L = .ok (h', L') ∧ SizeInv h' L')
    ∧ (∀ (h : Heap T) (L : SingleLinkedList) (i : Nat) (pos : BasicIterator) (v : T),
        SizeInv h L → GetSize L + 1 < SIZE_MOD → i ≤ GetSize L →
        advance h (before_begin L) i = .ok pos →
        ∃ h' L' it, InsertAfter h L pos v = .ok (h', L', it) ∧ SizeInv h' L')
    ∧ (∀ (h : Heap T) (L : SingleLinkedList) (i : Nat) (pos : BasicIterator),
        SizeInv h L → i < GetSize L → advance h (before_begin L) i = .ok pos →
        ∃ h' L' it, EraseAfter h L pos = .ok (h', L', it) ∧ SizeInv h' L')
    ∧ (∀ (h : Heap T) (L : SingleLinkedList), SizeInv h L →
        ∃ h' L', Clear h L = .ok (h', L') ∧ SizeInv h' L')
    ∧ (∀ (h : Heap T) (a b : SingleLinkedList), SizeInv h a → SizeInv h b →
        (a = b ∨ Separate h a b) →
        ∃ h' a' b', swap h a b = .ok (h', a', b') ∧ SizeInv h' a' ∧ SizeInv h' b')
    ∧ (∀ (h : Heap T) (L : SingleLinkedList), SizeInv h L →
        ∃ h' L2, SingleLinkedList.copy h L = .ok (h', L2) ∧ SizeInv h' L2 ∧ SizeInv h' L)
    ∧ (∀ (h : Heap T) (lhs rhs : SingleLinkedList), SizeInv h lhs → SizeInv h rhs →
        (lhs = rhs ∨ Separate h lhs rhs) →
        ∃ h' lhs', operator_assign h lhs rhs = .ok (h', lhs') ∧ SizeInv h' lhs'
          ∧ SizeInv h' rhs) :=
  ⟨sizeInv_ctor, sizeInv_ofValues,
    fun _ _ v hinv hcap => sizeInv_pushFront v hinv hcap,
    fun _ _ hinv hne => sizeInv_popFront hinv hne,
    fun _ _ _ _ v hinv hcap hi hpos => sizeInv_insertAfter v hinv hcap hi hpos,
    fun _ _ _ _ hinv hi hpos => sizeInv_eraseAfter hinv hi hpos,
    fun _ _ hinv => sizeInv_clear hinv,
    fun _ _ _ ha hb hsep => sizeInv_swap ha hb hsep,
    fun _ _ hinv => sizeInv_copy hinv,
    fun _ _ _ hl hr hsep => sizeInv_assign hl hr hsep⟩

theorem size_invariant_witness :
    SizeInv demoHeap demoA ∧ SizeInv demoHeap demoB ∧ GetSize demoB + 1 < SIZE_MOD ∧
    (∃ h' L', PushFront demoHeap demoB (7 : Int) = .ok (h', L') ∧ SizeInv h' L') ∧
    (∃ h' L' it, EraseAfter demoHeap demoB ⟨some 4⟩ = .ok (h', L', it) ∧ SizeInv h' L') ∧
    (∃ h' lhs', operator_assign demoHeap demoA demoB = .ok (h', lhs') ∧ SizeInv h' lhs'
      ∧ SizeInv h' demoB) := by
  have hA : SizeInv demoHeap demoA := ⟨rfl, by rw [SIZE_MOD_eq]; decide⟩
  have hB : SizeInv demoHeap demoB := ⟨rfl, by rw [SIZE_MOD_eq]; decide⟩
  have hS : Separate demoHeap demoA demoB := ⟨[0, 1, 2], [3, 4, 5, 6], rfl, rfl, by decide⟩
  have hcap : GetSize demoB + 1 < SIZE_MOD := by rw [SIZE_MOD_eq]; decide
  obtain ⟨_, _, hpush, _, _, herase, _, _, _, hassign⟩ := size_invariant (T := Int)
  exact ⟨hA, hB, hcap, hpush demoHeap demoB 7 hB hcap,
    herase demoHeap demoB 1 ⟨some 4⟩ hB (by decide) rfl,
    hassign demoHeap demoA demoB hA hB (Or.inr hS)⟩

end SLL
